import Mathlib

/-!
# GPU access-control admission webhook: embedding of `webhook-server/webhook.go`

The policy code of the webhook is embedded as pure Lean functions:

* Go strings are Lean strings; `strings.HasPrefix` and `strings.TrimPrefix` act
  on their character lists.
* A Go map (`corev1.ResourceList`, the label map) is an association list whose
  order is the order in which a `range` statement visits the entries.  Go leaves
  that order unspecified, so statements "for every iteration order" quantify
  over the permutations of the list.
* A function with named results and a bare `return` returns the current value
  of its result variables; the loops thread these variables explicitly.
* A run-time panic (nil dereference) is the `Except.error` result of `mutate`.
* `serve` yields the calls it makes on its response writer; the decoder, the JSON
  encoder and the writer are parameters.
* JSON Patch and JSON Pointer are modelled separately, as the reference semantics
  against which the emitted operations are judged.
-/

namespace Webhook

/-! ## Strings -/

/-- Go `strings.HasPrefix(s, pre)`. -/
def HasPrefix (s pre : String) : Bool :=
  pre.data.isPrefixOf s.data

/-- Go `strings.TrimPrefix(s, pre)`: `s` without the leading `pre`, or `s`
itself when it does not start with `pre`. -/
def TrimPrefix (s pre : String) : String :=
  if HasPrefix s pre then String.mk (s.data.drop pre.data.length) else s

/-- The verb `%d` of `fmt.Sprintf` at a non-negative `int`: decimal digits. -/
def formatInt (i : Nat) : String :=
  Nat.repr i

/-! ## Data model (the fields of the Kubernetes types that the code reads) -/

/-- Model of `resource.Quantity`: the amount `value * 10 ^ scale`. -/
structure Quantity where
  value : Int
  scale : Int
  deriving DecidableEq, Repr

/-- Model of `Quantity.IsZero`. -/
def Quantity.IsZero (q : Quantity) : Bool :=
  q.value == 0

/-- Model of `corev1.ResourceList`, a `map[ResourceName]Quantity`, in iteration order. -/
abbrev ResourceList := List (String × Quantity)

/-- Map lookup `_, present := m[key]`. -/
def ResourceList.present (m : ResourceList) (key : String) : Bool :=
  (m.lookup key).isSome

/-- Model of `corev1.EnvVarSource`; the policy never looks inside it. -/
structure EnvVarSource where
  ref : String
  deriving DecidableEq, Repr

/-- Model of `corev1.EnvVar`. -/
structure EnvVar where
  Name : String
  Value : String := ""
  ValueFrom : Option EnvVarSource := none
  deriving DecidableEq, Repr

/-- Model of `corev1.ResourceRequirements`. -/
structure ResourceRequirements where
  Limits : ResourceList := []
  Requests : ResourceList := []
  deriving DecidableEq, Repr

/-- Model of `corev1.Container`. -/
structure Container where
  Name : String := ""
  Env : List EnvVar := []
  Resources : ResourceRequirements := {}
  deriving DecidableEq, Repr

/-- Model of `corev1.PodSpec`. -/
structure PodSpec where
  InitContainers : List Container := []
  Containers : List Container := []
  deriving DecidableEq, Repr

/-- Model of `metav1.ObjectMeta`; `Labels = none` is the nil map. -/
structure ObjectMeta where
  Name : String := ""
  Namespace : String := ""
  Labels : Option (List (String × String)) := none
  deriving DecidableEq, Repr

/-- Model of `corev1.Pod`. -/
structure Pod where
  ObjectMeta : ObjectMeta := {}
  Spec : PodSpec := {}
  deriving DecidableEq, Repr

/-- The values that the code stores in the `Value interface{}` field of a patch. -/
inductive PatchValue where
  | envArray (es : List EnvVar)
  | envVar (e : EnvVar)
  deriving DecidableEq, Repr

/-- Model of `patchOperation`; `Value = none` is the nil interface (omitted in JSON). -/
structure patchOperation where
  Op : String
  Path : String
  Value : Option PatchValue := none
  deriving DecidableEq, Repr

/-! ## `mutateContainer` -/

/-- The keys of the map literal `disallowedEnv`. -/
def disallowedEnv : List String :=
  ["NVIDIA_VISIBLE_DEVICES", "NVIDIA_DRIVER_CAPABILITIES", "CUDA_VISIBLE_DEVICES"]

/-- The value of the variable `disallowed` after lines 141-144, for an entry named `name`. -/
def disallowed (name : String) : Bool :=
  let present := disallowedEnv.contains name
  if HasPrefix name "NVIDIA_REQUIRE_" then true else present

/-- The loop `for i := len(con.Env) - 1; i >= 0; i--` of lines 139-154.
The first numeric argument is `i + 1`; the last argument is the slice `p`.  The loop
starts at `len(con.Env)`, so `env[i]` always exists and the last case is never taken. -/
def envLoop (path : String) (env : List EnvVar) : Nat → List patchOperation → List patchOperation
  | 0, p => p
  | i + 1, p =>
    match env[i]? with
    | some e =>
      if disallowed e.Name then
        envLoop path env i
          (p ++ [{ Op := "remove", Path := path ++ "/env/" ++ formatInt i }])
      else
        envLoop path env i p
    | none => envLoop path env i p

/-- The loop `for name, value := range con.Resources.Limits` of lines 158-184 over the
entries still to be visited; the result is `(p, needsGPU)` at the end of the loop. -/
def limitsLoop (path : String) (requests : ResourceList) :
    List (String × Quantity) → List patchOperation → List patchOperation × Bool
  | [], p => (p, false)
  | (name, value) :: rest, p =>
    if HasPrefix name "nvidia.com/" then
      if value.IsZero then
        let variant := TrimPrefix name "nvidia.com/"
        let p1 := p ++ [{ Op := "remove",
                          Path := path ++ "/resources/limits/nvidia.com~1" ++ variant }]
        let p2 :=
          if requests.present ("nvidia.com/" ++ variant) then
            p1 ++ [{ Op := "remove",
                     Path := path ++ "/resources/requests/nvidia.com~1" ++ variant }]
          else p1
        limitsLoop path requests rest p2
      else
        (p, true)
    else
      limitsLoop path requests rest p

/-- Model of `mutateContainer(path, con)`: the named results `(p, needsGPU)`. -/
def mutateContainer (path : String) (con : Container) : List patchOperation × Bool :=
  let p0 := envLoop path con.Env con.Env.length []
  let r := limitsLoop path con.Resources.Requests con.Resources.Limits p0
  if !r.2 then
    let p1 :=
      if con.Env.length == 0 then
        r.1 ++ [{ Op := "add", Path := path ++ "/env", Value := some (PatchValue.envArray []) }]
      else r.1
    (p1 ++ [{ Op := "add", Path := path ++ "/env/-",
              Value := some (PatchValue.envVar
                { Name := "NVIDIA_VISIBLE_DEVICES", Value := "none", ValueFrom := none }) }],
     r.2)
  else
    (r.1, r.2)

/-! ## `mutatePodSpec` -/

/-- One of the two loops `for i := range ...` of `mutatePodSpec`, over the containers
from index `i` on; `kind` is `initContainers` or `containers`.  The result is the
slice `patches` and whether the function returned from inside the loop. -/
def scanContainers (path kind : String) :
    List Container → Nat → List patchOperation → List patchOperation × Bool
  | [], _, patches => (patches, false)
  | c :: cs, i, patches =>
    let r := mutateContainer (path ++ "/" ++ kind ++ "/" ++ formatInt i) c
    if r.2 then
      (patches, true)
    else
      scanContainers path kind cs (i + 1) (patches ++ r.1)

/-- Model of `mutatePodSpec(path, podSpec)`: the named results `(patches, PodNeedsGPU)`. -/
def mutatePodSpec (path : String) (podSpec : PodSpec) : List patchOperation × Bool :=
  let r := scanContainers path "initContainers" podSpec.InitContainers 0 []
  if r.2 then
    (r.1, true)
  else
    scanContainers path "containers" podSpec.Containers 0 r.1

/-! ## `isNotebook` -/

/-- The package variable `ignoredNamespaces`: `metav1.NamespaceSystem` and
`metav1.NamespacePublic`. -/
def ignoredNamespaces : List String :=
  ["kube-system", "kube-public"]

/-- The loop `for _, namespace := range ignoredList` of `isNotebook`: whether it
executes its `return false`. -/
def inIgnoredList (ns : String) : List String → Bool
  | [] => false
  | ignored :: rest => if ns == ignored then true else inIgnoredList ns rest

/-- Model of `isNotebook(ignoredList, metadata)`. -/
def isNotebook (ignoredList : List String) (metadata : ObjectMeta) : Bool :=
  if inIgnoredList metadata.Namespace ignoredList then
    false
  else
    let labels := match metadata.Labels with
      | none => []
      | some m => m
    let notebook_name := (labels.lookup "notebook-name").getD ""
    if notebook_name.length > 0 then true else false

/-! ## `WebhookServer.mutate` -/

/-- A byte sequence (`[]byte`). -/
abbrev Bytes := List Nat

/-- Model of `metav1.Status`, of which the code sets the message only. -/
structure Status where
  Message : String
  deriving DecidableEq, Repr

/-- Model of `v1beta1.PatchType`. -/
inductive PatchType where
  | JSONPatch
  deriving DecidableEq, Repr

/-- Model of `runtime.RawExtension`: the serialized object. -/
structure RawExtension where
  Raw : Bytes := []
  deriving DecidableEq, Repr

/-- Model of `v1beta1.AdmissionRequest`: the fields that decide the response. -/
structure AdmissionRequest where
  UID : String := ""
  Object : RawExtension := {}
  deriving DecidableEq, Repr

/-- Model of `v1beta1.AdmissionResponse`; `none` is the nil pointer or nil slice
of an unset field. -/
structure AdmissionResponse where
  UID : String := ""
  Allowed : Bool := false
  Result : Option Status := none
  Patch : Option Bytes := none
  PatchType : Option PatchType := none
  deriving DecidableEq, Repr

/-- Model of `v1beta1.AdmissionReview`; `Request = none` is the nil pointer. -/
structure AdmissionReview where
  Request : Option AdmissionRequest := none
  Response : Option AdmissionResponse := none
  deriving DecidableEq, Repr

/-- The two calls into `encoding/json` made by `mutate`, as parameters:
`json.Unmarshal(raw, &pod)` and `json.Marshal(patches)`. -/
structure Json where
  Unmarshal : Bytes → Except String Pod
  Marshal : List patchOperation → Except String Bytes

/-- Model of `WebhookServer.mutate(ar)`.  `Except.error` is a run-time panic:
`req.Object.Raw` dereferences `req`, which is nil when the review has no request. -/
def mutate (json : Json) (ar : AdmissionReview) : Except String AdmissionResponse :=
  match ar.Request with
  | none => Except.error "invalid memory address or nil pointer dereference"
  | some req =>
    match json.Unmarshal req.Object.Raw with
    | Except.error err => Except.ok { Result := some { Message := err } }
    | Except.ok pod =>
      if !isNotebook ignoredNamespaces pod.ObjectMeta then
        Except.ok { Allowed := true }
      else
        let r := mutatePodSpec "/spec" pod.Spec
        if r.2 then
          Except.ok { Allowed := true }
        else
          match json.Marshal r.1 with
          | Except.error err => Except.ok { Result := some { Message := err } }
          | Except.ok patchBytes =>
            Except.ok { Allowed := true, Patch := some patchBytes,
                        PatchType := some PatchType.JSONPatch }

/-! ## Reference semantics used to state the properties

JSON Patch (RFC 6902) and JSON Pointer (RFC 6901) are not part of the program;
the definitions below are what the properties of the emitted patches refer to. -/

/-- The value of a decimal digit. -/
def digitValue? (c : Char) : Option Nat :=
  if 48 ≤ c.toNat ∧ c.toNat ≤ 57 then some (c.toNat - 48) else none

/-- Reads decimal digits, continuing from the value `acc`. -/
def parseDigits : List Char → Nat → Option Nat
  | [], acc => some acc
  | c :: cs, acc =>
    match digitValue? c with
    | some d => parseDigits cs (acc * 10 + d)
    | none => none

/-- Reads an array index: a non-empty run of decimal digits. -/
def parseIndex? (cs : List Char) : Option Nat :=
  match cs with
  | [] => none
  | _ :: _ => parseDigits cs 0

/-- The suffix of `s` after the prefix `pre`, when `s` starts with `pre`. -/
def dropPrefix? : List Char → List Char → Option (List Char)
  | [], s => some s
  | _ :: _, [] => none
  | a :: pre, b :: s => if a = b then dropPrefix? pre s else none

/-- The index `i` when `op` is a `remove` at `<path>/env/<i>`. -/
def envRemoveIndex? (path : String) (op : patchOperation) : Option Nat :=
  if op.Op = "remove" then
    match dropPrefix? (path ++ "/env/").data op.Path.data with
    | some rest => parseIndex? rest
    | none => none
  else none

/-- RFC 6902 `remove` of the element at index `i` of an array: an error (`none`)
when the index does not exist. -/
def removeAt (env : List EnvVar) (i : Nat) : Option (List EnvVar) :=
  if i < env.length then some (env.eraseIdx i) else none

/-- Applies, in order, the operations of `ops` that are a `remove` at
`<path>/env/<i>` to the array `env`; `none` as soon as one of them fails. -/
def applyEnvRemoves (path : String) : List patchOperation → List EnvVar → Option (List EnvVar)
  | [], env => some env
  | op :: ops, env =>
    match envRemoveIndex? path op with
    | some i =>
      match removeAt env i with
      | some env1 => applyEnvRemoves path ops env1
      | none => none
    | none => applyEnvRemoves path ops env

/-- RFC 6901 escaping of a reference token: `~` becomes `~0` and `/` becomes `~1`. -/
def escapeChars : List Char → List Char
  | [] => []
  | c :: cs =>
    if c = '~' then '~' :: '0' :: escapeChars cs
    else if c = '/' then '~' :: '1' :: escapeChars cs
    else c :: escapeChars cs

/-- RFC 6901 escaping of a reference token, on strings. -/
def escapeJSONPointer (s : String) : String :=
  String.mk (escapeChars s.data)

/-- RFC 6901 unescaping of a reference token: `~1` becomes `/` and `~0` becomes `~`. -/
def unescapeChars : List Char → List Char
  | [] => []
  | '~' :: '0' :: cs => '~' :: unescapeChars cs
  | '~' :: '1' :: cs => '/' :: unescapeChars cs
  | c :: cs => c :: unescapeChars cs

/-- The characters after the last `/` of a JSON Pointer: its last reference token. -/
def lastSegment (cs : List Char) : List Char :=
  ((cs.reverse).takeWhile (fun c => c != '/')).reverse

/-! ## Vocabulary of the properties -/

/-- Whether `env` has an entry at index `i` whose name is disallowed. -/
def disallowedAt (env : List EnvVar) (i : Nat) : Bool :=
  match env[i]? with
  | some e => disallowed e.Name
  | none => false

/-- The indices below `n` of the disallowed entries of `env`, highest first. -/
def disallowedBelow (env : List EnvVar) (n : Nat) : List Nat :=
  (List.range n).reverse.filter (disallowedAt env)

/-- The `remove` operation at `<path>/env/<i>`. -/
def envRemoveOp (path : String) (i : Nat) : patchOperation :=
  { Op := "remove", Path := path ++ "/env/" ++ formatInt i }

/-- A limit entry that classifies its container as GPU-requesting: the key starts
with `nvidia.com/` and the quantity is not zero. -/
def requestsGPU (kv : String × Quantity) : Bool :=
  HasPrefix kv.1 "nvidia.com/" && !kv.2.IsZero

/-- The operations emitted for one limit entry that does not end the scan. -/
def resourceOps (path : String) (requests : ResourceList) (kv : String × Quantity) :
    List patchOperation :=
  if HasPrefix kv.1 "nvidia.com/" && kv.2.IsZero then
    { Op := "remove",
      Path := path ++ "/resources/limits/nvidia.com~1" ++ TrimPrefix kv.1 "nvidia.com/" } ::
      (if requests.present kv.1 then
        [{ Op := "remove",
           Path := path ++ "/resources/requests/nvidia.com~1" ++ TrimPrefix kv.1 "nvidia.com/" }]
       else [])
  else []

/-- The operation that creates the env array: `add` of `[]` at `<path>/env`. -/
def addEnvArrayOp (path : String) : patchOperation :=
  { Op := "add", Path := path ++ "/env", Value := some (PatchValue.envArray []) }

/-- The operation that appends `NVIDIA_VISIBLE_DEVICES=none`: `add` at the end of
the env array of the container at `path`. -/
def addNoneOp (path : String) : patchOperation :=
  { Op := "add", Path := path ++ "/env/-",
    Value := some (PatchValue.envVar { Name := "NVIDIA_VISIBLE_DEVICES", Value := "none" }) }

/-- Applies `remove` at each index of `idxs` in turn. -/
def removeAll : List Nat → List EnvVar → Option (List EnvVar)
  | [], env => some env
  | i :: idxs, env =>
    match removeAt env i with
    | some env1 => removeAll idxs env1
    | none => none

/-- The containers of one list of a pod, each with the path under which the loop of
`mutatePodSpec` visits it, from index `i` on. -/
def withPaths (path kind : String) : List Container → Nat → List (String × Container)
  | [], _ => []
  | c :: cs, i => (path ++ "/" ++ kind ++ "/" ++ formatInt i, c) :: withPaths path kind cs (i + 1)

/-- The containers of a pod in the order in which `mutatePodSpec` scans them: the
init containers, then the regular containers, each with its path. -/
def scanOrder (path : String) (podSpec : PodSpec) : List (String × Container) :=
  withPaths path "initContainers" podSpec.InitContainers 0 ++
    withPaths path "containers" podSpec.Containers 0

/-- Whether `mutateContainer` classifies the container as GPU-requesting. -/
def containerNeedsGPU (pc : String × Container) : Bool :=
  (mutateContainer pc.1 pc.2).2

/-- The patch list of `mutateContainer` for a container at its path. -/
def containerPatches (pc : String × Container) : List patchOperation :=
  (mutateContainer pc.1 pc.2).1

/-- A container with its limits map visited in the order `limits`. -/
def Container.withLimits (con : Container) (limits : ResourceList) : Container :=
  { con with Resources := { con.Resources with Limits := limits } }

/-! ## Example inputs -/

/-- A quantity with the integer value `n`. -/
def qty (n : Int) : Quantity :=
  { value := n, scale := 0 }

/-- A container without GPU limits whose env sets `NVIDIA_VISIBLE_DEVICES=all`. -/
def plainContainer : Container :=
  { Name := "notebook", Env := [{ Name := "NVIDIA_VISIBLE_DEVICES", Value := "all" }] }

/-- A container with the limit `nvidia.com/gpu: 1` and a disallowed env entry. -/
def gpuContainer : Container :=
  { Name := "cuda", Env := [{ Name := "NVIDIA_VISIBLE_DEVICES", Value := "all" }],
    Resources := { Limits := [("cpu", qty 2), ("nvidia.com/gpu", qty 1)] } }

/-- A container that zeroes one GPU resource and requests another. -/
def mixedContainer : Container :=
  { Name := "mixed", Env := [{ Name := "PATH", Value := "/bin" }],
    Resources := { Limits := [("nvidia.com/mig", qty 0), ("nvidia.com/gpu", qty 1)],
                   Requests := [("nvidia.com/mig", qty 0)] } }

/-- A notebook pod: an init container without GPU limits, then a GPU container. -/
def mixedPod : Pod :=
  { ObjectMeta := { Name := "nb", Namespace := "default", Labels := some [("notebook-name", "foo")] },
    Spec := { InitContainers := [plainContainer], Containers := [gpuContainer] } }

/-- A JSON codec that decodes every request to `mixedPod`. -/
def mixedPodJson : Json :=
  { Unmarshal := fun _ => Except.ok mixedPod, Marshal := fun _ => Except.ok [] }

/-- An admission review with a request. -/
def someReview : AdmissionReview :=
  { Request := some { UID := "705ab4f5", Object := { Raw := [123, 125] } } }

/-- A container with the zero-valued limit and request `nvidia.com/gpu`. -/
def zeroGpuContainer : Container :=
  { Name := "notebook",
    Resources := { Limits := [("nvidia.com/gpu", qty 0)], Requests := [("nvidia.com/gpu", qty 0)] } }

/-- A container whose zero-valued GPU limit has a second `/` after the prefix. -/
def slashKeyContainer : Container :=
  { Name := "notebook",
    Resources := { Limits := [("nvidia.com/a/b", qty 0)], Requests := [("nvidia.com/a/b", qty 0)] } }

/-- A container whose zero-valued GPU limit has a `~` after the prefix. -/
def tildeKeyContainer : Container :=
  { Name := "notebook", Resources := { Limits := [("nvidia.com/a~1b", qty 0)] } }

/-! ## `WebhookServer.serve` -/

/-- What `serve` does to its `http.ResponseWriter`: a call `http.Error(w, message, code)`
or a call `w.Write(body)`. -/
inductive HttpEvent where
  | error (message : String) (code : Nat)
  | write (body : Bytes)
  deriving DecidableEq, Repr

/-- The request as `serve` reads it: the bytes obtained from `r.Body` (none when the
body is nil or cannot be read) and the `Content-Type` header. -/
structure HttpRequest where
  Body : Bytes := []
  ContentType : String := ""
  deriving DecidableEq, Repr

/-- The library calls of `serve`, as parameters: `deserializer.Decode(body, nil, &ar)`
gives the value of `ar` after the call and the error, `json.Marshal(admissionReview)`
the bytes or the error, and `w.Write(resp)` the error if any. -/
structure ServeEnv where
  Decode : Bytes → AdmissionReview × Option String
  Marshal : AdmissionReview → Except String Bytes
  Write : Bytes → Option String

/-- Lines 285-304 of `serve`: the response envelope `admissionReview` built from the
review `ar` left by the decoder and the decoding error.  `Except.error` is a panic
raised by `mutate`. -/
def buildReview (json : Json) (ar : AdmissionReview) (decodeErr : Option String) :
    Except String AdmissionReview :=
  let admissionResponse : Except String AdmissionResponse :=
    match decodeErr with
    | some err => Except.ok { Result := some { Message := err } }
    | none => mutate json ar
  match admissionResponse with
  | Except.error p => Except.error p
  | Except.ok resp =>
    match ar.Request with
    | some req => Except.ok { Response := some { resp with UID := req.UID } }
    | none => Except.ok { Response := some resp }

/-- Model of `WebhookServer.serve(w, r)`: the calls made on `w`, in order.
`Except.error` is a panic, which leaves the request without a response. -/
def serve (json : Json) (env : ServeEnv) (r : HttpRequest) : Except String (List HttpEvent) :=
  if r.Body.length == 0 then
    Except.ok [HttpEvent.error "empty body" 400]
  else if r.ContentType != "application/json" then
    Except.ok [HttpEvent.error "invalid Content-Type, expect `application/json`" 415]
  else
    let d := env.Decode r.Body
    match buildReview json d.1 d.2 with
    | Except.error p => Except.error p
    | Except.ok admissionReview =>
      let encoded : List HttpEvent × Bytes :=
        match env.Marshal admissionReview with
        | Except.error err => ([HttpEvent.error ("could not encode response: " ++ err) 500], [])
        | Except.ok resp => ([], resp)
      match env.Write encoded.2 with
      | some err =>
        Except.ok (encoded.1 ++ [HttpEvent.write encoded.2,
          HttpEvent.error ("could not write response: " ++ err) 500])
      | none => Except.ok (encoded.1 ++ [HttpEvent.write encoded.2])

/-! ## Reference semantics: applying the operations to a container -/

/-- Puts `c` in front of the first piece of a split. -/
def consHead (c : Char) : List (List Char) → List (List Char)
  | [] => [[c]]
  | t :: ts => (c :: t) :: ts

/-- The pieces of a character list between its `/` characters. -/
def splitSlash : List Char → List (List Char)
  | [] => [[]]
  | c :: cs => if c = '/' then [] :: splitSlash cs else consHead c (splitSlash cs)

/-- The reference tokens of a JSON Pointer (RFC 6901), unescaped; `none` when the
pointer is not empty and does not start with `/`. -/
def pointerTokens : List Char → Option (List (List Char))
  | [] => some []
  | c :: cs => if c = '/' then some ((splitSlash cs).map unescapeChars) else none

/-- The reference tokens of the path of `op` below the container at `path`. -/
def relTokens (path : String) (op : patchOperation) : Option (List (List Char)) :=
  match dropPrefix? path.data op.Path.data with
  | some rest => pointerTokens rest
  | none => none

/-- RFC 6902 `add` and `remove` on the member `env` of a container; `tokens` are the
reference tokens after `env`, and `env = none` is an absent member.  The result is
`none` when the operation fails (missing target, index out of bounds) or is not one
of the forms handled here. -/
def applyToEnv (op : patchOperation) (tokens : List (List Char))
    (env : Option (List EnvVar)) : Option (Option (List EnvVar)) :=
  match tokens with
  | [] =>
    if op.Op = "add" then
      match op.Value with
      | some (PatchValue.envArray es) => some (some es)
      | _ => none
    else none
  | [t] =>
    if op.Op = "add" then
      if t = ['-'] then
        match op.Value, env with
        | some (PatchValue.envVar e), some arr => some (some (arr ++ [e]))
        | _, _ => none
      else none
    else if op.Op = "remove" then
      match parseIndex? t, env with
      | some i, some arr =>
        match removeAt arr i with
        | some arr1 => some (some arr1)
        | none => none
      | _, _ => none
    else none
  | _ => none

/-- Applies, in order, the operations of `ops` whose path lies under `<path>/env`
to the member `env`; the other operations are skipped.  `none` as soon as one fails. -/
def applyEnvOps (path : String) :
    List patchOperation → Option (List EnvVar) → Option (Option (List EnvVar))
  | [], env => some env
  | op :: ops, env =>
    match relTokens path op with
    | some (t :: ts) =>
      if t = "env".data then
        match applyToEnv op ts env with
        | some env1 => applyEnvOps path ops env1
        | none => none
      else applyEnvOps path ops env
    | _ => applyEnvOps path ops env

/-- The part of the JSON document of a container that the patches address. -/
structure ContainerDoc where
  Env : Option (List EnvVar)
  Limits : ResourceList
  Requests : ResourceList
  deriving DecidableEq, Repr

/-- RFC 6902 `remove` of the member `key` of a map: an error when it is absent. -/
def removeKey (m : ResourceList) (key : String) : Option ResourceList :=
  if m.present key then some (m.filter (fun kv => kv.1 != key)) else none

/-- Applies one operation to the document of the container at `path`; `none` when
it fails or is not one of the forms handled here. -/
def applyOp (path : String) (op : patchOperation) (doc : ContainerDoc) : Option ContainerDoc :=
  match relTokens path op with
  | some (t :: ts) =>
    if t = "env".data then
      match applyToEnv op ts doc.Env with
      | some env1 => some { doc with Env := env1 }
      | none => none
    else if t = "resources".data then
      match ts with
      | [m, k] =>
        if op.Op = "remove" then
          if m = "limits".data then
            match removeKey doc.Limits (String.mk k) with
            | some limits => some { doc with Limits := limits }
            | none => none
          else if m = "requests".data then
            match removeKey doc.Requests (String.mk k) with
            | some requests => some { doc with Requests := requests }
            | none => none
          else none
        else none
      | _ => none
    else none
  | _ => none

/-- Applies the operations in order; `none` as soon as one fails. -/
def applyPatch (path : String) : List patchOperation → ContainerDoc → Option ContainerDoc
  | [], doc => some doc
  | op :: ops, doc =>
    match applyOp path op doc with
    | some doc1 => applyPatch path ops doc1
    | none => none

/-- The document of a container as serialized: an empty env is omitted. -/
def Container.toDoc (con : Container) : ContainerDoc :=
  { Env := if con.Env = [] then none else some con.Env,
    Limits := con.Resources.Limits, Requests := con.Resources.Requests }

/-- The container read back from a document. -/
def Container.ofDoc (con : Container) (doc : ContainerDoc) : Container :=
  { con with Env := doc.Env.getD [],
             Resources := { Limits := doc.Limits, Requests := doc.Requests } }

/-- The container `con` after applying to it the patch list that `mutateContainer`
emits for it at `path`; `none` when the patch cannot be applied. -/
def patched (path : String) (con : Container) : Option Container :=
  match applyPatch path (mutateContainer path con).1 con.toDoc with
  | some doc => some (con.ofDoc doc)
  | none => none

/-- The entry that disables the GPU. -/
def noneEnvVar : EnvVar :=
  { Name := "NVIDIA_VISIBLE_DEVICES", Value := "none" }

/-- A limit entry that `mutateContainer` strips: the key starts with `nvidia.com/`
and the quantity is zero. -/
def zeroGPU (kv : String × Quantity) : Bool :=
  HasPrefix kv.1 "nvidia.com/" && kv.2.IsZero

/-- The container described by the policy: the disallowed env entries dropped and
`NVIDIA_VISIBLE_DEVICES=none` appended, the zero-valued `nvidia.com/` limits removed,
and the requests under the keys of those limits removed. -/
def stripped (con : Container) : Container :=
  { con with
    Env := con.Env.filter (fun e => !disallowed e.Name) ++ [noneEnvVar],
    Resources :=
      { Limits := con.Resources.Limits.filter (fun kv => !zeroGPU kv),
        Requests := con.Resources.Requests.filter
          (fun r => !con.Resources.Limits.any (fun kv => zeroGPU kv && kv.1 == r.1)) } }

/-- A container with env entries to strip and zero-valued GPU limits and requests. -/
def busyContainer : Container :=
  { Name := "notebook",
    Env := [{ Name := "NVIDIA_VISIBLE_DEVICES", Value := "all" }, { Name := "HOME", Value := "/root" },
            { Name := "NVIDIA_REQUIRE_CUDA", Value := "cuda>=11" }, { Name := "PATH", Value := "/bin" },
            { Name := "CUDA_VISIBLE_DEVICES", Value := "0" }],
    Resources := { Limits := [("cpu", qty 2), ("nvidia.com/gpu", qty 0), ("nvidia.com/mig-1g.5gb", qty 0)],
                   Requests := [("cpu", qty 1), ("nvidia.com/gpu", qty 0)] } }

/-! ## Further example inputs -/

/-- A notebook pod in the namespace `kube-system`. -/
def systemPod : Pod :=
  { ObjectMeta := { Name := "nb", Namespace := "kube-system",
                    Labels := some [("notebook-name", "foo")] },
    Spec := { Containers := [plainContainer] } }

/-- A notebook pod without GPU limits: one init container and two regular ones. -/
def plainPod : Pod :=
  { ObjectMeta := { Name := "nb", Namespace := "default",
                    Labels := some [("notebook-name", "foo")] },
    Spec := { InitContainers := [zeroGpuContainer],
              Containers := [plainContainer, { Name := "sidecar" }] } }

/-- A JSON codec that decodes every request to `pod` and encodes every patch list
as the bytes of `[]`. -/
def constJson (pod : Pod) : Json :=
  { Unmarshal := fun _ => Except.ok pod, Marshal := fun _ => Except.ok [91, 93] }

/-- A container with the request `nvidia.com/gpu: 1` and no limit. -/
def requestOnlyContainer : Container :=
  { Name := "notebook", Resources := { Requests := [("nvidia.com/gpu", qty 1)] } }

/-- An envelope decoder that yields the review `ar` without an error. -/
def constEnv (ar : AdmissionReview) : ServeEnv :=
  { Decode := fun _ => (ar, none), Marshal := fun _ => Except.ok [123, 125],
    Write := fun _ => none }

/-- A request with a JSON body. -/
def jsonRequest : HttpRequest :=
  { Body := [123, 125], ContentType := "application/json" }

/-! ## Lemmas on the loops and on the reference semantics -/

theorem append_TrimPrefix (s pre : String) (h : HasPrefix s pre = true) :
    pre ++ TrimPrefix s pre = s := by
  unfold TrimPrefix
  rw [if_pos h]
  unfold HasPrefix at h
  rw [List.isPrefixOf_iff_prefix] at h
  apply String.ext
  rw [String.data_append]
  exact List.prefix_iff_eq_append.mp h

theorem envLoop_eq (path : String) (env : List EnvVar) (n : Nat) (p : List patchOperation) :
    envLoop path env n p = p ++ (disallowedBelow env n).map (envRemoveOp path) := by
  induction n generalizing p with
  | zero => simp [envLoop, disallowedBelow]
  | succ i ih =>
    have hr : disallowedBelow env (i + 1) =
        (if disallowedAt env i then [i] else []) ++ disallowedBelow env i := by
      unfold disallowedBelow
      rw [List.range_succ, List.reverse_append]
      simp [List.filter_cons]
      split <;> simp
    rw [hr]
    unfold envLoop
    cases hget : env[i]? with
    | none =>
      simp only [disallowedAt, hget]
      rw [ih]; simp
    | some e =>
      simp only [disallowedAt, hget]
      by_cases hd : disallowed e.Name = true
      · simp only [hd, if_true]
        rw [ih]; simp [envRemoveOp]
      · simp only [hd]
        simpa using ih p

theorem limitsLoop_snd (path : String) (requests : ResourceList)
    (l : List (String × Quantity)) (p : List patchOperation) :
    (limitsLoop path requests l p).2 = l.any requestsGPU := by
  induction l generalizing p with
  | nil => simp [limitsLoop]
  | cons kv rest ih =>
    obtain ⟨name, value⟩ := kv
    unfold limitsLoop
    by_cases h1 : HasPrefix name "nvidia.com/" = true
    · by_cases h2 : value.IsZero = true
      · simp [h1, h2, ih, requestsGPU]
      · simp [h1, h2, requestsGPU]
    · simp [h1, ih, requestsGPU]

theorem limitsLoop_fst (path : String) (requests : ResourceList)
    (l : List (String × Quantity)) (p : List patchOperation) :
    (limitsLoop path requests l p).1 =
      p ++ (l.takeWhile (fun kv => !requestsGPU kv)).flatMap (resourceOps path requests) := by
  induction l generalizing p with
  | nil => simp [limitsLoop]
  | cons kv rest ih =>
    obtain ⟨name, value⟩ := kv
    unfold limitsLoop
    by_cases h1 : HasPrefix name "nvidia.com/" = true
    · by_cases h2 : value.IsZero = true
      · have hk : "nvidia.com/" ++ TrimPrefix name "nvidia.com/" = name :=
          append_TrimPrefix name "nvidia.com/" h1
        simp only [h1, h2, if_true, hk]
        rw [ih]
        simp [List.takeWhile_cons, requestsGPU, resourceOps, h1, h2]
        split <;> simp
      · simp [h1, h2, List.takeWhile_cons, requestsGPU]
    · simp [h1, ih, List.takeWhile_cons, requestsGPU, resourceOps]

theorem mutateContainer_snd (path : String) (con : Container) :
    (mutateContainer path con).2 = con.Resources.Limits.any requestsGPU := by
  unfold mutateContainer
  simp only []
  split <;> simp [limitsLoop_snd]

theorem mutateContainer_fst (path : String) (con : Container) :
    (mutateContainer path con).1 =
      (disallowedBelow con.Env con.Env.length).map (envRemoveOp path) ++
      (con.Resources.Limits.takeWhile (fun kv => !requestsGPU kv)).flatMap
        (resourceOps path con.Resources.Requests) ++
      (if con.Resources.Limits.any requestsGPU then []
       else (if con.Env = [] then [addEnvArrayOp path] else []) ++ [addNoneOp path]) := by
  unfold mutateContainer
  simp only [limitsLoop_snd, limitsLoop_fst, envLoop_eq]
  by_cases hg : con.Resources.Limits.any requestsGPU = true
  · simp [hg]
  · simp only [hg]
    by_cases he : con.Env = []
    · simp [he, addEnvArrayOp, addNoneOp]
    · simp [he, addEnvArrayOp, addNoneOp]

theorem digitValue_digitChar (k : Nat) (hk : k < 10) :
    digitValue? (Nat.digitChar k) = some k := by
  interval_cases k <;> rfl

theorem parseDigits_append (xs ys : List Char) (acc : Nat) :
    parseDigits (xs ++ ys) acc =
      match parseDigits xs acc with
      | some v => parseDigits ys v
      | none => none := by
  induction xs generalizing acc with
  | nil => simp [parseDigits]
  | cons c cs ih =>
    simp only [List.cons_append, parseDigits]
    cases digitValue? c with
    | none => rfl
    | some d => exact ih _

theorem toDigitsCore_append (fuel n : Nat) (ds : List Char) :
    Nat.toDigitsCore 10 fuel n ds = Nat.toDigitsCore 10 fuel n [] ++ ds := by
  induction fuel generalizing n ds with
  | zero => simp [Nat.toDigitsCore]
  | succ f ih =>
    simp only [Nat.toDigitsCore]
    split
    · simp
    · rw [ih (n / 10) (Nat.digitChar (n % 10) :: ds), ih (n / 10) [Nat.digitChar (n % 10)]]
      simp

theorem parseDigits_toDigitsCore (fuel n : Nat) (h : n < fuel) :
    parseDigits (Nat.toDigitsCore 10 fuel n []) 0 = some n := by
  induction fuel generalizing n with
  | zero => omega
  | succ f ih =>
    simp only [Nat.toDigitsCore]
    split
    · rename_i h0
      have hn : n < 10 := by omega
      simp only [parseDigits]
      rw [Nat.mod_eq_of_lt hn, digitValue_digitChar n hn]
      simp [parseDigits]
    · rename_i h0
      rw [toDigitsCore_append, parseDigits_append, ih (n / 10) (by omega)]
      simp only [parseDigits]
      rw [digitValue_digitChar (n % 10) (Nat.mod_lt _ (by decide))]
      simp only []
      congr 1
      omega

theorem toDigitsCore_ne_nil (fuel n : Nat) (ds : List Char) (h : 0 < fuel) :
    Nat.toDigitsCore 10 fuel n ds ≠ [] := by
  cases fuel with
  | zero => omega
  | succ f =>
    simp only [Nat.toDigitsCore]
    split
    · simp
    · rw [toDigitsCore_append]; simp

theorem parseIndex_formatInt (i : Nat) : parseIndex? (formatInt i).data = some i := by
  have hd : (formatInt i).data = Nat.toDigitsCore 10 (i + 1) i [] := rfl
  rw [hd]
  have hne := toDigitsCore_ne_nil (i + 1) i [] (by omega)
  have hp := parseDigits_toDigitsCore (i + 1) i (by omega)
  unfold parseIndex?
  split
  · rename_i heq; exact absurd heq hne
  · exact hp

theorem dropPrefix_append (a b c : List Char) :
    dropPrefix? (a ++ b) (a ++ c) = dropPrefix? b c := by
  induction a with
  | nil => rfl
  | cons x xs ih => simp [dropPrefix?, ih]

theorem dropPrefix_self_append (a c : List Char) : dropPrefix? a (a ++ c) = some c := by
  have := dropPrefix_append a [] c
  simpa [dropPrefix?] using this

theorem envRemoveIndex_envRemoveOp (path : String) (i : Nat) :
    envRemoveIndex? path (envRemoveOp path i) = some i := by
  unfold envRemoveIndex? envRemoveOp
  simp only [if_true, String.data_append, List.append_assoc]
  rw [← List.append_assoc, dropPrefix_self_append]
  exact parseIndex_formatInt i

/-! ## Lemmas on the pod scan -/

theorem requestsGPU_iff (kv : String × Quantity) :
    requestsGPU kv = true ↔ HasPrefix kv.1 "nvidia.com/" = true ∧ kv.2.IsZero = false := by
  simp [requestsGPU]

theorem needsGPU_iff (path : String) (con : Container) :
    (mutateContainer path con).2 = true ↔
      ∃ kv ∈ con.Resources.Limits, HasPrefix kv.1 "nvidia.com/" = true ∧ kv.2.IsZero = false := by
  rw [mutateContainer_snd, List.any_eq_true]
  simp only [requestsGPU_iff]

theorem needsGPU_path_irrelevant (p q : String) (con : Container) :
    (mutateContainer p con).2 = (mutateContainer q con).2 := by
  rw [mutateContainer_snd, mutateContainer_snd]

theorem scanContainers_snd (path kind : String) (cs : List Container) (i : Nat)
    (patches : List patchOperation) :
    (scanContainers path kind cs i patches).2 =
      (withPaths path kind cs i).any containerNeedsGPU := by
  induction cs generalizing i patches with
  | nil => simp [scanContainers, withPaths]
  | cons c cs ih =>
    unfold scanContainers
    simp only [withPaths, List.any_cons, containerNeedsGPU]
    split
    · rename_i h; simp [h]
    · rename_i h; simp [h, ih, containerNeedsGPU]

theorem scanContainers_fst (path kind : String) (cs : List Container) (i : Nat)
    (patches : List patchOperation) :
    (scanContainers path kind cs i patches).1 =
      patches ++ ((withPaths path kind cs i).takeWhile
        (fun pc => !containerNeedsGPU pc)).flatMap containerPatches := by
  induction cs generalizing i patches with
  | nil => simp [scanContainers, withPaths]
  | cons c cs ih =>
    unfold scanContainers
    simp only [withPaths, List.takeWhile_cons, containerNeedsGPU]
    split
    · rename_i h; simp [h]
    · rename_i h; simp [h, ih, containerNeedsGPU, containerPatches]

theorem mutatePodSpec_snd (path : String) (podSpec : PodSpec) :
    (mutatePodSpec path podSpec).2 = (scanOrder path podSpec).any containerNeedsGPU := by
  unfold mutatePodSpec scanOrder
  simp only [scanContainers_snd, List.any_append]
  split
  · rename_i h; simp [h]
  · rename_i h; rw [scanContainers_snd]; simp [h]

theorem mutatePodSpec_fst (path : String) (podSpec : PodSpec) :
    (mutatePodSpec path podSpec).1 =
      ((scanOrder path podSpec).takeWhile (fun pc => !containerNeedsGPU pc)).flatMap
        containerPatches := by
  unfold mutatePodSpec scanOrder
  simp only [scanContainers_snd, scanContainers_fst, List.takeWhile_append]
  split
  · rename_i h
    have hne : (List.takeWhile (fun pc => !containerNeedsGPU pc)
        (withPaths path "initContainers" podSpec.InitContainers 0)).length ≠
        (withPaths path "initContainers" podSpec.InitContainers 0).length := by
      intro hlen
      have hall := List.takeWhile_eq_self_iff.mp (List.Sublist.eq_of_length
        (List.takeWhile_sublist _) hlen)
      rw [List.any_eq_true] at h
      obtain ⟨x, hx, hxg⟩ := h
      have := hall x hx
      simp [hxg] at this
    simp [hne]
  · rename_i h
    have hall : List.takeWhile (fun pc => !containerNeedsGPU pc)
        (withPaths path "initContainers" podSpec.InitContainers 0) =
        withPaths path "initContainers" podSpec.InitContainers 0 := by
      rw [List.takeWhile_eq_self_iff]
      intro x hx
      have hx2 : containerNeedsGPU x = false := by
        by_contra hc
        exact h (List.any_eq_true.mpr ⟨x, hx, by simpa using hc⟩)
      simp [hx2]
    rw [scanContainers_fst]
    simp [hall]

theorem mem_withPaths (path kind : String) (cs : List Container) (i : Nat) (c : Container) :
    (∃ p, (p, c) ∈ withPaths path kind cs i) ↔ c ∈ cs := by
  induction cs generalizing i with
  | nil => simp [withPaths]
  | cons d ds ih =>
    simp only [withPaths, List.mem_cons, Prod.mk.injEq]
    constructor
    · rintro ⟨p, h | h⟩
      · exact Or.inl h.2
      · exact Or.inr ((ih (i + 1)).mp ⟨p, h⟩)
    · rintro (h | h)
      · exact ⟨_, Or.inl ⟨rfl, h⟩⟩
      · obtain ⟨p, hp⟩ := (ih (i + 1)).mpr h
        exact ⟨p, Or.inr hp⟩

theorem mem_scanOrder (path : String) (podSpec : PodSpec) (c : Container) :
    (∃ p, (p, c) ∈ scanOrder path podSpec) ↔
      c ∈ podSpec.InitContainers ++ podSpec.Containers := by
  unfold scanOrder
  simp only [List.mem_append, exists_or, mem_withPaths]

theorem podNeedsGPU_iff (path : String) (podSpec : PodSpec) :
    (mutatePodSpec path podSpec).2 = true ↔
      ∃ c ∈ podSpec.InitContainers ++ podSpec.Containers,
        c.Resources.Limits.any requestsGPU = true := by
  rw [mutatePodSpec_snd, List.any_eq_true]
  constructor
  · rintro ⟨⟨p, c⟩, hmem, hg⟩
    refine ⟨c, (mem_scanOrder path podSpec c).mp ⟨p, hmem⟩, ?_⟩
    simpa [containerNeedsGPU, mutateContainer_snd] using hg
  · rintro ⟨c, hmem, hg⟩
    obtain ⟨p, hp⟩ := (mem_scanOrder path podSpec c).mpr hmem
    exact ⟨(p, c), hp, by simpa [containerNeedsGPU, mutateContainer_snd] using hg⟩

theorem mutate_of_podNeedsGPU (json : Json) (ar : AdmissionReview) (req : AdmissionRequest)
    (pod : Pod) (hreq : ar.Request = some req) (hpod : json.Unmarshal req.Object.Raw = Except.ok pod)
    (hgpu : (mutatePodSpec "/spec" pod.Spec).2 = true) :
    mutate json ar = Except.ok { Allowed := true } := by
  unfold mutate
  simp only [hreq, hpod, hgpu, if_true]
  split <;> rfl

theorem any_requestsGPU_perm (l1 l2 : ResourceList) (h : l1.Perm l2) :
    l1.any requestsGPU = l2.any requestsGPU := by
  rw [Bool.eq_iff_iff, List.any_eq_true, List.any_eq_true]
  constructor
  · rintro ⟨x, hx, hg⟩; exact ⟨x, h.mem_iff.mp hx, hg⟩
  · rintro ⟨x, hx, hg⟩; exact ⟨x, h.mem_iff.mpr hx, hg⟩

theorem split_at_first {α : Type} (f : α → Bool) (l : List α) (h : l.any f = true) :
    ∃ before x after, l = before ++ x :: after ∧ (∀ y ∈ before, f y = false) ∧ f x = true ∧
      l.takeWhile (fun y => !f y) = before := by
  induction l with
  | nil => simp at h
  | cons a l ih =>
    by_cases ha : f a = true
    · exact ⟨[], a, l, rfl, by simp, ha, by simp [List.takeWhile_cons, ha]⟩
    · have hl : l.any f = true := by simpa [ha] using h
      obtain ⟨before, x, after, hsplit, hbefore, hx, htake⟩ := ih hl
      refine ⟨a :: before, x, after, by simp [hsplit], ?_, hx, ?_⟩
      · intro y hy
        rcases List.mem_cons.mp hy with rfl | hy
        · simpa using ha
        · exact hbefore y hy
      · simp [List.takeWhile_cons, ha, htake]

theorem resourceOps_remove (path : String) (requests : ResourceList) (kv : String × Quantity) :
    ∀ op ∈ resourceOps path requests kv, op.Op = "remove" ∧ op.Value = none := by
  intro op hop
  unfold resourceOps at hop
  split at hop
  · rcases List.mem_cons.mp hop with rfl | hop
    · exact ⟨rfl, rfl⟩
    · split at hop
      · rw [List.mem_singleton] at hop; subst hop; exact ⟨rfl, rfl⟩
      · simp at hop
  · simp at hop

theorem containerPatches_ne_nil (pc : String × Container) (h : containerNeedsGPU pc = false) :
    containerPatches pc ≠ [] := by
  unfold containerPatches
  unfold containerNeedsGPU at h
  rw [mutateContainer_snd] at h
  rw [mutateContainer_fst]
  simp [h]

/-! ## Claims C1 to C5: the GPU short-circuit -/

/-- C1: a pod that decodes successfully and has a container, init or regular, with a
limit key starting with `nvidia.com/` and a nonzero quantity is answered with
allowed = true, no patch and no patch type, whatever its namespace, labels and other
containers are. -/
theorem mutate_gpu_pod_allowed_unpatched (json : Json) (ar : AdmissionReview)
    (req : AdmissionRequest) (pod : Pod) (hreq : ar.Request = some req)
    (hpod : json.Unmarshal req.Object.Raw = Except.ok pod)
    (hgpu : ∃ c ∈ pod.Spec.InitContainers ++ pod.Spec.Containers,
      ∃ kv ∈ c.Resources.Limits, HasPrefix kv.1 "nvidia.com/" = true ∧ kv.2.IsZero = false) :
    ∃ resp, mutate json ar = Except.ok resp ∧
      resp.Allowed = true ∧ resp.Patch = none ∧ resp.PatchType = none := by
  have hneeds : (mutatePodSpec "/spec" pod.Spec).2 = true := by
    rw [podNeedsGPU_iff]
    obtain ⟨c, hc, kv, hkv, hk⟩ := hgpu
    exact ⟨c, hc, List.any_eq_true.mpr ⟨kv, hkv, (requestsGPU_iff kv).mpr hk⟩⟩
  exact ⟨{ Allowed := true }, mutate_of_podNeedsGPU json ar req pod hreq hpod hneeds,
    rfl, rfl, rfl⟩

/-- Witness of C1: the notebook pod `mixedPod`, whose regular container has the
limit `nvidia.com/gpu: 1`, is admitted without a patch. -/
theorem mutate_gpu_pod_allowed_unpatched_witness :
    (∃ c ∈ mixedPod.Spec.InitContainers ++ mixedPod.Spec.Containers,
      ∃ kv ∈ c.Resources.Limits, HasPrefix kv.1 "nvidia.com/" = true ∧ kv.2.IsZero = false) ∧
    ∃ resp, mutate mixedPodJson someReview = Except.ok resp ∧
      resp.Allowed = true ∧ resp.Patch = none ∧ resp.PatchType = none :=
  have h : ∃ c ∈ mixedPod.Spec.InitContainers ++ mixedPod.Spec.Containers,
      ∃ kv ∈ c.Resources.Limits, HasPrefix kv.1 "nvidia.com/" = true ∧ kv.2.IsZero = false :=
    ⟨gpuContainer, by decide, ("nvidia.com/gpu", qty 1), by decide, by decide, by decide⟩
  ⟨h, mutate_gpu_pod_allowed_unpatched mixedPodJson someReview
    { UID := "705ab4f5", Object := { Raw := [123, 125] } } mixedPod rfl rfl h⟩

/-- Counterexample to C2: for the init container without GPU limits followed by a
regular container with the limit `nvidia.com/gpu: 1`, `mutatePodSpec` reports
PodNeedsGPU = true and returns the two patches of the init container. -/
theorem mutatePodSpec_gpu_patches_not_empty :
    (mutatePodSpec "/spec" mixedPod.Spec).2 = true ∧
    (mutatePodSpec "/spec" mixedPod.Spec).1 =
      [{ Op := "remove", Path := "/spec/initContainers/0/env/0" },
       { Op := "add", Path := "/spec/initContainers/0/env/-",
         Value := some (PatchValue.envVar { Name := "NVIDIA_VISIBLE_DEVICES", Value := "none" }) }] ∧
    (mutatePodSpec "/spec" mixedPod.Spec).1 ≠ [] := by
  decide

/-- C2, amended: when `mutatePodSpec` reports PodNeedsGPU = true, the patch list it
returns is the concatenation of the patch lists of the containers scanned before the
first GPU-requesting one (init containers first), with nothing of that container or
of a later one; it is empty exactly when no container precedes that one. -/
theorem mutatePodSpec_gpu_patches_of_earlier (path : String) (podSpec : PodSpec)
    (h : (mutatePodSpec path podSpec).2 = true) :
    ∃ before pc after, scanOrder path podSpec = before ++ pc :: after ∧
      (∀ x ∈ before, containerNeedsGPU x = false) ∧ containerNeedsGPU pc = true ∧
      (mutatePodSpec path podSpec).1 = before.flatMap containerPatches ∧
      ((mutatePodSpec path podSpec).1 = [] ↔ before = []) := by
  rw [mutatePodSpec_snd] at h
  obtain ⟨before, pc, after, hsplit, hbefore, hpc, htake⟩ :=
    split_at_first containerNeedsGPU (scanOrder path podSpec) h
  have hfst : (mutatePodSpec path podSpec).1 = before.flatMap containerPatches := by
    rw [mutatePodSpec_fst, htake]
  refine ⟨before, pc, after, hsplit, hbefore, hpc, hfst, ?_⟩
  rw [hfst]
  constructor
  · intro hnil
    cases before with
    | nil => rfl
    | cons b bs =>
      exfalso
      have hb := containerPatches_ne_nil b (hbefore b (List.mem_cons_self _ _))
      simp only [List.flatMap_cons, List.append_eq_nil] at hnil
      exact hb hnil.1
  · intro hnil; rw [hnil]; rfl

/-- Witness of C2, amended: in `mixedPod` the init container is scanned before the
GPU container, and its patches are what `mutatePodSpec` returns. -/
theorem mutatePodSpec_gpu_patches_of_earlier_witness :
    (mutatePodSpec "/spec" mixedPod.Spec).2 = true ∧
    ∃ before pc after, scanOrder "/spec" mixedPod.Spec = before ++ pc :: after ∧
      (∀ x ∈ before, containerNeedsGPU x = false) ∧ containerNeedsGPU pc = true ∧
      (mutatePodSpec "/spec" mixedPod.Spec).1 = before.flatMap containerPatches ∧
      ((mutatePodSpec "/spec" mixedPod.Spec).1 = [] ↔ before = []) :=
  ⟨by decide, mutatePodSpec_gpu_patches_of_earlier "/spec" mixedPod.Spec (by decide)⟩

/-- Counterexample to C3: the container with the limit `nvidia.com/gpu: 1` and the
env entry `NVIDIA_VISIBLE_DEVICES` is reported as needing a GPU, and the patch list
returned holds the `remove` of that env entry. -/
theorem mutateContainer_gpu_returns_env_remove :
    mutateContainer "/spec/containers/0" gpuContainer =
      ([{ Op := "remove", Path := "/spec/containers/0/env/0" }], true) ∧
    ∃ op ∈ (mutateContainer "/spec/containers/0" gpuContainer).1, op.Op = "remove" := by
  decide

/-- C3, amended: for a container with a nonzero `nvidia.com/` limit and for every
order `order` in which the limits map is iterated, `mutateContainer` reports
needsGPU = true and returns `remove` operations only (no `add`): the removes of the
disallowed env entries, then the limit and request removes of the zero-valued
`nvidia.com/` keys visited before the first nonzero one.  The caller drops the list:
the loop of `mutatePodSpec` returns with its `patches` unchanged. -/
theorem mutateContainer_gpu_returns_removes_only (path : String) (con : Container)
    (order : ResourceList) (hperm : con.Resources.Limits.Perm order)
    (hgpu : ∃ kv ∈ con.Resources.Limits,
      HasPrefix kv.1 "nvidia.com/" = true ∧ kv.2.IsZero = false) :
    (mutateContainer path (con.withLimits order)).2 = true ∧
    (∀ op ∈ (mutateContainer path (con.withLimits order)).1,
      op.Op = "remove" ∧ op.Value = none) ∧
    (∃ before kv after, order = before ++ kv :: after ∧
      (∀ x ∈ before, requestsGPU x = false) ∧ requestsGPU kv = true ∧
      (mutateContainer path (con.withLimits order)).1 =
        (disallowedBelow con.Env con.Env.length).map (envRemoveOp path) ++
          before.flatMap (resourceOps path con.Resources.Requests)) ∧
    (∀ (kind : String) (cs : List Container) (i : Nat) (patches : List patchOperation),
      scanContainers path kind (con.withLimits order :: cs) i patches = (patches, true)) := by
  have hany : order.any requestsGPU = true := by
    rw [← any_requestsGPU_perm _ _ hperm, List.any_eq_true]
    obtain ⟨kv, hkv, hk⟩ := hgpu
    exact ⟨kv, hkv, (requestsGPU_iff kv).mpr hk⟩
  have hsnd : ∀ p, (mutateContainer p (con.withLimits order)).2 = true := by
    intro p
    rw [mutateContainer_snd]; exact hany
  obtain ⟨before, kv, after, hsplit, hbefore, hkv, htake⟩ :=
    split_at_first requestsGPU order hany
  have hfst : (mutateContainer path (con.withLimits order)).1 =
      (disallowedBelow con.Env con.Env.length).map (envRemoveOp path) ++
        before.flatMap (resourceOps path con.Resources.Requests) := by
    rw [mutateContainer_fst]
    simp only [Container.withLimits, hany, if_true, htake, List.append_nil]
  refine ⟨hsnd path, ?_, ⟨before, kv, after, hsplit, hbefore, hkv, hfst⟩, ?_⟩
  · intro op hop
    rw [hfst, List.mem_append] at hop
    rcases hop with hop | hop
    · obtain ⟨i, _, rfl⟩ := List.mem_map.mp hop
      exact ⟨rfl, rfl⟩
    · obtain ⟨x, _, hx⟩ := List.mem_flatMap.mp hop
      exact resourceOps_remove path con.Resources.Requests x op hx
  · intro kind cs i patches
    unfold scanContainers
    simp only [hsnd, if_true]

/-- Witness of C3, amended: `mixedContainer` with its two limits visited in the
opposite order, the nonzero `nvidia.com/gpu` first. -/
theorem mutateContainer_gpu_returns_removes_only_witness :
    mixedContainer.Resources.Limits.Perm [("nvidia.com/gpu", qty 1), ("nvidia.com/mig", qty 0)] ∧
    (∃ kv ∈ mixedContainer.Resources.Limits,
      HasPrefix kv.1 "nvidia.com/" = true ∧ kv.2.IsZero = false) ∧
    (mutateContainer "/spec/containers/0" (mixedContainer.withLimits
      [("nvidia.com/gpu", qty 1), ("nvidia.com/mig", qty 0)])).2 = true ∧
    (∀ op ∈ (mutateContainer "/spec/containers/0" (mixedContainer.withLimits
      [("nvidia.com/gpu", qty 1), ("nvidia.com/mig", qty 0)])).1,
      op.Op = "remove" ∧ op.Value = none) :=
  have hperm : mixedContainer.Resources.Limits.Perm
      [("nvidia.com/gpu", qty 1), ("nvidia.com/mig", qty 0)] := List.Perm.swap _ _ _
  have hgpu : ∃ kv ∈ mixedContainer.Resources.Limits,
      HasPrefix kv.1 "nvidia.com/" = true ∧ kv.2.IsZero = false :=
    ⟨("nvidia.com/gpu", qty 1), by decide, by decide, by decide⟩
  have hres := mutateContainer_gpu_returns_removes_only "/spec/containers/0" mixedContainer
    [("nvidia.com/gpu", qty 1), ("nvidia.com/mig", qty 0)] hperm hgpu
  ⟨hperm, hgpu, hres.1, hres.2.1⟩

/-- C4: `mutateContainer` reports needsGPU = true if and only if the limits hold a key
starting with `nvidia.com/` whose quantity is not zero, and the report is the same for
every order `order` in which the limits map is iterated. -/
theorem mutateContainer_needsGPU_iff (path : String) (con : Container)
    (order : ResourceList) (hperm : con.Resources.Limits.Perm order) :
    ((mutateContainer path (con.withLimits order)).2 = true ↔
      ∃ kv ∈ con.Resources.Limits,
        HasPrefix kv.1 "nvidia.com/" = true ∧ kv.2.IsZero = false) ∧
    (mutateContainer path (con.withLimits order)).2 = (mutateContainer path con).2 := by
  have heq : (mutateContainer path (con.withLimits order)).2 = (mutateContainer path con).2 := by
    rw [mutateContainer_snd, mutateContainer_snd]
    exact (any_requestsGPU_perm _ _ hperm).symm
  exact ⟨by rw [heq]; exact needsGPU_iff path con, heq⟩

/-- Witness of C4: `mixedContainer`, whose zero-valued key `nvidia.com/mig` is visited
before the nonzero `nvidia.com/gpu` in one order and after it in the other. -/
theorem mutateContainer_needsGPU_iff_witness :
    mixedContainer.Resources.Limits.Perm [("nvidia.com/gpu", qty 1), ("nvidia.com/mig", qty 0)] ∧
    (mutateContainer "/c" mixedContainer).2 = true ∧
    (mutateContainer "/c" (mixedContainer.withLimits
      [("nvidia.com/gpu", qty 1), ("nvidia.com/mig", qty 0)])).2 =
        (mutateContainer "/c" mixedContainer).2 :=
  ⟨List.Perm.swap _ _ _, by decide,
   (mutateContainer_needsGPU_iff "/c" mixedContainer
      [("nvidia.com/gpu", qty 1), ("nvidia.com/mig", qty 0)] (List.Perm.swap _ _ _)).2⟩

/-- C5: `mutatePodSpec` reports PodNeedsGPU = true if and only if some init container
or regular container is classified GPU-requesting by `mutateContainer`, that is, has
a limit key starting with `nvidia.com/` whose quantity is not zero. -/
theorem mutatePodSpec_needsGPU_iff (path : String) (podSpec : PodSpec) :
    ((mutatePodSpec path podSpec).2 = true ↔
      ∃ pc ∈ scanOrder path podSpec, (mutateContainer pc.1 pc.2).2 = true) ∧
    ((mutatePodSpec path podSpec).2 = true ↔
      ∃ c ∈ podSpec.InitContainers ++ podSpec.Containers, ∀ p, (mutateContainer p c).2 = true) ∧
    ((mutatePodSpec path podSpec).2 = true ↔
      ∃ c ∈ podSpec.InitContainers ++ podSpec.Containers, ∃ kv ∈ c.Resources.Limits,
        HasPrefix kv.1 "nvidia.com/" = true ∧ kv.2.IsZero = false) := by
  refine ⟨?_, ?_, ?_⟩
  · rw [mutatePodSpec_snd, List.any_eq_true]
    rfl
  · rw [podNeedsGPU_iff]
    constructor
    · rintro ⟨c, hc, hg⟩
      exact ⟨c, hc, fun p => by rw [mutateContainer_snd]; exact hg⟩
    · rintro ⟨c, hc, hg⟩
      exact ⟨c, hc, by rw [← mutateContainer_snd ""]; exact hg ""⟩
  · rw [podNeedsGPU_iff]
    constructor
    · rintro ⟨c, hc, hg⟩
      obtain ⟨kv, hkv, hk⟩ := List.any_eq_true.mp hg
      exact ⟨c, hc, kv, hkv, (requestsGPU_iff kv).mp hk⟩
    · rintro ⟨c, hc, kv, hkv, hk⟩
      exact ⟨c, hc, List.any_eq_true.mpr ⟨kv, hkv, (requestsGPU_iff kv).mpr hk⟩⟩

/-! ## Lemmas on the paths of the emitted operations -/

theorem isPrefixOf_append_left (a b c : List Char) :
    (a ++ b).isPrefixOf (a ++ c) = b.isPrefixOf c := by
  induction a with
  | nil => rfl
  | cons x xs ih => simp [List.isPrefixOf, ih]

theorem envRemoveIndex_resourceOps (path : String) (requests : ResourceList)
    (kv : String × Quantity) :
    ∀ op ∈ resourceOps path requests kv, envRemoveIndex? path op = none ∧
      HasPrefix op.Path (path ++ "/env/") = false := by
  intro op hop
  have hl : ∀ v : String, envRemoveIndex? path
      { Op := "remove", Path := path ++ "/resources/limits/nvidia.com~1" ++ v } = none ∧
      HasPrefix (path ++ "/resources/limits/nvidia.com~1" ++ v) (path ++ "/env/") = false := by
    intro v
    constructor
    · unfold envRemoveIndex?
      simp only [if_true, String.data_append, List.append_assoc]
      rw [dropPrefix_append]
      rfl
    · unfold HasPrefix
      simp only [String.data_append, List.append_assoc]
      rw [isPrefixOf_append_left]
      rfl
  have hr : ∀ v : String, envRemoveIndex? path
      { Op := "remove", Path := path ++ "/resources/requests/nvidia.com~1" ++ v } = none ∧
      HasPrefix (path ++ "/resources/requests/nvidia.com~1" ++ v) (path ++ "/env/") = false := by
    intro v
    constructor
    · unfold envRemoveIndex?
      simp only [if_true, String.data_append, List.append_assoc]
      rw [dropPrefix_append]
      rfl
    · unfold HasPrefix
      simp only [String.data_append, List.append_assoc]
      rw [isPrefixOf_append_left]
      rfl
  unfold resourceOps at hop
  split at hop
  · rcases List.mem_cons.mp hop with rfl | hop
    · exact hl _
    · split at hop
      · rw [List.mem_singleton] at hop; subst hop; exact hr _
      · simp at hop
  · simp at hop

theorem envRemoveIndex_add (path : String) (op : patchOperation) (h : op.Op = "add") :
    envRemoveIndex? path op = none := by
  unfold envRemoveIndex?
  rw [h]
  rfl

theorem filterMap_eq_nil_of_forall {α β : Type} (f : α → Option β) (l : List α)
    (h : ∀ x ∈ l, f x = none) : l.filterMap f = [] := by
  induction l with
  | nil => rfl
  | cons a l ih =>
    rw [List.filterMap_cons, h a (List.mem_cons_self _ _)]
    exact ih (fun x hx => h x (List.mem_cons_of_mem _ hx))

theorem filterMap_envRemoveOp (path : String) (idxs : List Nat) :
    (idxs.map (envRemoveOp path)).filterMap (envRemoveIndex? path) = idxs := by
  induction idxs with
  | nil => rfl
  | cons i is ih =>
    rw [List.map_cons, List.filterMap_cons, envRemoveIndex_envRemoveOp]
    simp only [ih]

/-- The operations that follow the env removes in the output of `mutateContainer`. -/
theorem mutateContainer_split (path : String) (con : Container) :
    ∃ rest, (mutateContainer path con).1 =
        (disallowedBelow con.Env con.Env.length).map (envRemoveOp path) ++ rest ∧
      (∀ op ∈ rest, envRemoveIndex? path op = none) ∧
      (∀ op ∈ rest, ¬ (op.Op = "remove" ∧ HasPrefix op.Path (path ++ "/env/") = true)) := by
  refine ⟨_, by rw [mutateContainer_fst, List.append_assoc], ?_, ?_⟩
  · intro op hop
    rcases List.mem_append.mp hop with hop | hop
    · obtain ⟨x, _, hx⟩ := List.mem_flatMap.mp hop
      exact (envRemoveIndex_resourceOps path _ x op hx).1
    · split at hop
      · simp at hop
      · apply envRemoveIndex_add
        rcases List.mem_append.mp hop with hop | hop
        · split at hop
          · rw [List.mem_singleton] at hop; subst hop; rfl
          · simp at hop
        · rw [List.mem_singleton] at hop; subst hop; rfl
  · intro op hop
    rcases List.mem_append.mp hop with hop | hop
    · obtain ⟨x, _, hx⟩ := List.mem_flatMap.mp hop
      intro hc
      have := (envRemoveIndex_resourceOps path _ x op hx).2
      rw [this] at hc
      exact Bool.noConfusion hc.2
    · split at hop
      · simp at hop
      · have hadd : op.Op = "add" := by
          rcases List.mem_append.mp hop with hop | hop
          · split at hop
            · rw [List.mem_singleton] at hop; subst hop; rfl
            · simp at hop
          · rw [List.mem_singleton] at hop; subst hop; rfl
        intro hc
        rw [hadd] at hc
        exact absurd hc.1 (by decide)

theorem disallowed_iff (name : String) :
    disallowed name = true ↔
      (name = "NVIDIA_VISIBLE_DEVICES" ∨ name = "NVIDIA_DRIVER_CAPABILITIES" ∨
        name = "CUDA_VISIBLE_DEVICES" ∨ HasPrefix name "NVIDIA_REQUIRE_" = true) := by
  unfold disallowed disallowedEnv
  by_cases h : HasPrefix name "NVIDIA_REQUIRE_" = true
  · simp [h]
  · simp [h]

theorem mem_disallowedBelow (env : List EnvVar) (n i : Nat) :
    i ∈ disallowedBelow env n ↔ i < n ∧ disallowedAt env i = true := by
  simp [disallowedBelow]

theorem disallowedBelow_sorted (env : List EnvVar) (n : Nat) :
    (disallowedBelow env n).Sorted (fun a b => b < a) := by
  unfold disallowedBelow
  apply List.Pairwise.filter
  rw [List.pairwise_reverse]
  exact List.pairwise_lt_range n

theorem disallowedAt_iff (env : List EnvVar) (i : Nat) :
    disallowedAt env i = true ↔ ∃ e, env[i]? = some e ∧ disallowed e.Name = true := by
  unfold disallowedAt
  cases env[i]? with
  | none => simp
  | some e => simp

theorem removeAll_isSome (idxs : List Nat) (env : List EnvVar)
    (hs : idxs.Sorted (fun a b => b < a)) (hb : ∀ i ∈ idxs, i < env.length) :
    (removeAll idxs env).isSome = true := by
  induction idxs generalizing env with
  | nil => rfl
  | cons i is ih =>
    have hi : i < env.length := hb i (List.mem_cons_self _ _)
    have hs2 := List.sorted_cons.mp hs
    unfold removeAll removeAt
    simp only [hi, if_true]
    apply ih _ hs2.2
    intro j hj
    have hji : j < i := hs2.1 j hj
    rw [List.length_eraseIdx]
    simp only [hi, if_true]
    omega

theorem applyEnvRemoves_eq (path : String) (ops : List patchOperation) (env : List EnvVar) :
    applyEnvRemoves path ops env = removeAll (ops.filterMap (envRemoveIndex? path)) env := by
  induction ops generalizing env with
  | nil => rfl
  | cons op ops ih =>
    unfold applyEnvRemoves
    rw [List.filterMap_cons]
    cases h : envRemoveIndex? path op with
    | none => simp only [ih]
    | some i =>
      simp only [removeAll]
      cases removeAt env i with
      | none => rfl
      | some env1 => simp only [ih]

theorem envRemoveIndices_eq (path : String) (con : Container) :
    (mutateContainer path con).1.filterMap (envRemoveIndex? path) =
      disallowedBelow con.Env con.Env.length := by
  obtain ⟨rest, hsplit, hnone, _⟩ := mutateContainer_split path con
  rw [hsplit, List.filterMap_append, filterMap_envRemoveOp,
    filterMap_eq_nil_of_forall _ rest hnone, List.append_nil]

theorem present_iff (m : ResourceList) (k : String) :
    m.present k = true ↔ ∃ q, (k, q) ∈ m := by
  unfold ResourceList.present
  induction m with
  | nil => simp [List.lookup]
  | cons kv m ih =>
    obtain ⟨a, b⟩ := kv
    simp only [List.lookup]
    by_cases hk : k = a
    · subst hk
      simp
    · have hbeq : (k == a) = false := by simpa using hk
      simp only [hbeq, ih, List.mem_cons, Prod.mk.injEq, hk, false_and, false_or]

theorem HasPrefix_resources (path : String) (requests : ResourceList)
    (kv : String × Quantity) :
    ∀ op ∈ resourceOps path requests kv, HasPrefix op.Path (path ++ "/resources") = true := by
  intro op hop
  unfold resourceOps at hop
  split at hop
  · rcases List.mem_cons.mp hop with rfl | hop
    · unfold HasPrefix
      simp only [String.data_append, List.append_assoc]
      rw [isPrefixOf_append_left]
      rfl
    · split at hop
      · rw [List.mem_singleton] at hop; subst hop
        unfold HasPrefix
        simp only [String.data_append, List.append_assoc]
        rw [isPrefixOf_append_left]
        rfl
      · simp at hop
  · simp at hop

theorem HasPrefix_resources_envRemoveOp (path : String) (i : Nat) :
    HasPrefix (envRemoveOp path i).Path (path ++ "/resources") = false := by
  unfold HasPrefix envRemoveOp
  simp only [String.data_append, List.append_assoc]
  rw [isPrefixOf_append_left]
  rfl

theorem HasPrefix_resources_adds (path : String) :
    HasPrefix (addEnvArrayOp path).Path (path ++ "/resources") = false ∧
    HasPrefix (addNoneOp path).Path (path ++ "/resources") = false := by
  unfold HasPrefix addEnvArrayOp addNoneOp
  simp only [String.data_append]
  rw [isPrefixOf_append_left, isPrefixOf_append_left]
  exact ⟨rfl, rfl⟩

theorem filter_eq_self_of_forall {α : Type} (f : α → Bool) (l : List α)
    (h : ∀ x ∈ l, f x = true) : l.filter f = l :=
  List.filter_eq_self.mpr h

theorem filter_eq_nil_of_forall {α : Type} (f : α → Bool) (l : List α)
    (h : ∀ x ∈ l, f x = false) : l.filter f = [] := by
  rw [List.filter_eq_nil_iff]
  intro x hx
  simp [h x hx]

/-! ## Claims C6 to C10: the operations emitted for one container -/

/-- C6: the output of `mutateContainer` starts with the env removes
`idxs.map (envRemoveOp path)`, where the indices `idxs` are strictly decreasing and
are exactly the positions of `con.Env` whose entry is named `NVIDIA_VISIBLE_DEVICES`,
`NVIDIA_DRIVER_CAPABILITIES` or `CUDA_VISIBLE_DEVICES` or has a name starting with
`NVIDIA_REQUIRE_`; no operation after them is a `remove` under the env path, and
reading the env-remove indices off the whole output gives `idxs` back. -/
theorem mutateContainer_env_removes (path : String) (con : Container) :
    ∃ idxs rest, (mutateContainer path con).1 = idxs.map (envRemoveOp path) ++ rest ∧
      idxs.Sorted (fun a b => b < a) ∧
      (∀ i, i ∈ idxs ↔ ∃ e, con.Env[i]? = some e ∧
        (e.Name = "NVIDIA_VISIBLE_DEVICES" ∨ e.Name = "NVIDIA_DRIVER_CAPABILITIES" ∨
          e.Name = "CUDA_VISIBLE_DEVICES" ∨ HasPrefix e.Name "NVIDIA_REQUIRE_" = true)) ∧
      (∀ op ∈ rest, ¬ (op.Op = "remove" ∧ HasPrefix op.Path (path ++ "/env/") = true)) ∧
      (mutateContainer path con).1.filterMap (envRemoveIndex? path) = idxs := by
  obtain ⟨rest, hsplit, _, hrest⟩ := mutateContainer_split path con
  refine ⟨disallowedBelow con.Env con.Env.length, rest, hsplit,
    disallowedBelow_sorted _ _, ?_, hrest, envRemoveIndices_eq path con⟩
  intro i
  rw [mem_disallowedBelow, disallowedAt_iff]
  constructor
  · rintro ⟨_, e, he, hd⟩
    exact ⟨e, he, (disallowed_iff e.Name).mp hd⟩
  · rintro ⟨e, he, hd⟩
    refine ⟨?_, e, he, (disallowed_iff e.Name).mpr hd⟩
    obtain ⟨hlt, _⟩ := List.getElem?_eq_some.mp he
    exact hlt

/-- C7: applying the env `remove` operations of the output of `mutateContainer`, in
the order emitted, to the container's env array succeeds at every step: no index is
out of bounds for the array as the earlier removals have left it.  The operations
applied are those of the disallowed positions, highest first. -/
theorem mutateContainer_env_removes_in_bounds (path : String) (con : Container) :
    (applyEnvRemoves path (mutateContainer path con).1 con.Env).isSome = true ∧
    (mutateContainer path con).1.filterMap (envRemoveIndex? path) =
      (List.range con.Env.length).reverse.filter (disallowedAt con.Env) := by
  refine ⟨?_, envRemoveIndices_eq path con⟩
  rw [applyEnvRemoves_eq, envRemoveIndices_eq]
  apply removeAll_isSome _ _ (disallowedBelow_sorted _ _)
  intro i hi
  exact ((mem_disallowedBelow _ _ _).mp hi).1

/-- C8: for a container that is not classified GPU-requesting, the output of
`mutateContainer` is `remove` operations followed by the `add` operations: the last
operation appends `NVIDIA_VISIBLE_DEVICES=none` to the env array, and the `add` of an
empty env array stands right before it exactly when the container's env is empty.
For env `[NVIDIA_VISIBLE_DEVICES=all]`, no limits and path `/spec/containers/0` the
output is the remove of env entry 0 followed by that append. -/
theorem mutateContainer_adds (path : String) (con : Container)
    (h : (mutateContainer path con).2 = false) :
    (∃ front, (∀ op ∈ front, op.Op = "remove") ∧
      (mutateContainer path con).1 =
        front ++ (if con.Env = [] then [addEnvArrayOp path] else []) ++ [addNoneOp path]) ∧
    (mutateContainer path con).1.getLast? = some
      { Op := "add", Path := path ++ "/env/-",
        Value := some (PatchValue.envVar { Name := "NVIDIA_VISIBLE_DEVICES", Value := "none" }) } ∧
    ((∃ front, (mutateContainer path con).1 = front ++
        [{ Op := "add", Path := path ++ "/env", Value := some (PatchValue.envArray []) },
         addNoneOp path]) ↔ con.Env = []) ∧
    mutateContainer "/spec/containers/0"
        { Env := [{ Name := "NVIDIA_VISIBLE_DEVICES", Value := "all" }] } =
      ([{ Op := "remove", Path := "/spec/containers/0/env/0" },
        { Op := "add", Path := "/spec/containers/0/env/-",
          Value := some (PatchValue.envVar { Name := "NVIDIA_VISIBLE_DEVICES", Value := "none" }) }],
       false) := by
  rw [mutateContainer_snd] at h
  have hfront : ∀ op ∈ (disallowedBelow con.Env con.Env.length).map (envRemoveOp path) ++
      (con.Resources.Limits.takeWhile (fun kv => !requestsGPU kv)).flatMap
        (resourceOps path con.Resources.Requests), op.Op = "remove" := by
    intro op hop
    rcases List.mem_append.mp hop with hop | hop
    · obtain ⟨i, _, rfl⟩ := List.mem_map.mp hop
      rfl
    · obtain ⟨x, _, hx⟩ := List.mem_flatMap.mp hop
      exact (resourceOps_remove path con.Resources.Requests x op hx).1
  have hout : (mutateContainer path con).1 =
      ((disallowedBelow con.Env con.Env.length).map (envRemoveOp path) ++
      (con.Resources.Limits.takeWhile (fun kv => !requestsGPU kv)).flatMap
        (resourceOps path con.Resources.Requests)) ++
      (if con.Env = [] then [addEnvArrayOp path] else []) ++ [addNoneOp path] := by
    rw [mutateContainer_fst]
    simp [h]
  refine ⟨⟨_, hfront, hout⟩, ?_, ?_, by decide⟩
  · rw [hout, List.getLast?_append]
    rfl
  · constructor
    · rintro ⟨front, hf⟩
      by_contra hne
      rw [hout] at hf
      simp only [hne, if_false, List.append_nil] at hf
      have hf2 : front ++ [addEnvArrayOp path, addNoneOp path] =
          (front ++ [addEnvArrayOp path]) ++ [addNoneOp path] := by simp
      rw [show ({ Op := "add", Path := path ++ "/env", Value := some (PatchValue.envArray []) } :
        patchOperation) = addEnvArrayOp path from rfl, hf2] at hf
      have hinj := List.append_inj_left' hf rfl
      have hmem : addEnvArrayOp path ∈ (disallowedBelow con.Env con.Env.length).map
          (envRemoveOp path) ++ (con.Resources.Limits.takeWhile (fun kv => !requestsGPU kv)).flatMap
          (resourceOps path con.Resources.Requests) := by
        rw [hinj]; simp
      have hop : ("add" : String) = "remove" := hfront _ hmem
      exact absurd hop (by decide)
    · intro he
      refine ⟨(disallowedBelow con.Env con.Env.length).map (envRemoveOp path) ++
        (con.Resources.Limits.takeWhile (fun kv => !requestsGPU kv)).flatMap
          (resourceOps path con.Resources.Requests), ?_⟩
      rw [hout]
      simp only [he, if_true, List.append_assoc]
      rfl

/-- Witness of C8: `plainContainer` has no limits, so it is not GPU-requesting. -/
theorem mutateContainer_adds_witness :
    (mutateContainer "/spec/containers/0" plainContainer).2 = false ∧
    (mutateContainer "/spec/containers/0" plainContainer).1.getLast? = some
      { Op := "add", Path := "/spec/containers/0" ++ "/env/-",
        Value := some (PatchValue.envVar { Name := "NVIDIA_VISIBLE_DEVICES", Value := "none" }) } :=
  ⟨by decide, (mutateContainer_adds "/spec/containers/0" plainContainer (by decide)).2.1⟩

theorem flatMap_congr_mem {α β : Type} (f g : α → List β) (l : List α)
    (h : ∀ x ∈ l, f x = g x) : l.flatMap f = l.flatMap g := by
  induction l with
  | nil => rfl
  | cons a l ih =>
    rw [List.flatMap_cons, List.flatMap_cons, h a (List.mem_cons_self _ _),
      ih (fun x hx => h x (List.mem_cons_of_mem _ hx))]

/-- C9: for a container with no nonzero `nvidia.com/` limit, the operations of the
output of `mutateContainer` whose path lies under `<path>/resources` are, for each
limit entry whose key starts with `nvidia.com/`, one `remove` of that limit followed by
one `remove` of the request with the same key when the requests hold that key, and
nothing else; the key is rendered as `nvidia.com~1` followed by what comes after the
prefix.  For limits and requests `nvidia.com/gpu: 0` both removes are emitted, under
the name `nvidia.com~1gpu`. -/
theorem mutateContainer_resource_removes (path : String) (con : Container)
    (h : ∀ kv ∈ con.Resources.Limits, HasPrefix kv.1 "nvidia.com/" = true → kv.2.IsZero = true) :
    (mutateContainer path con).1.filter (fun op => HasPrefix op.Path (path ++ "/resources")) =
      con.Resources.Limits.flatMap (fun kv =>
        if HasPrefix kv.1 "nvidia.com/" then
          { Op := "remove",
            Path := path ++ "/resources/limits/nvidia.com~1" ++ TrimPrefix kv.1 "nvidia.com/" } ::
          (if con.Resources.Requests.present kv.1 then
            [{ Op := "remove",
               Path := path ++ "/resources/requests/nvidia.com~1" ++
                 TrimPrefix kv.1 "nvidia.com/" }]
           else [])
        else []) ∧
    (∀ kv ∈ con.Resources.Limits, HasPrefix kv.1 "nvidia.com/" = true →
      kv.1 = "nvidia.com/" ++ TrimPrefix kv.1 "nvidia.com/") ∧
    (∀ k, con.Resources.Requests.present k = true ↔ ∃ q, (k, q) ∈ con.Resources.Requests) ∧
    mutateContainer "/spec/containers/0"
        { Resources := { Limits := [("nvidia.com/gpu", { value := 0, scale := 0 })],
                         Requests := [("nvidia.com/gpu", { value := 0, scale := 0 })] } } =
      ([{ Op := "remove", Path := "/spec/containers/0/resources/limits/nvidia.com~1gpu" },
        { Op := "remove", Path := "/spec/containers/0/resources/requests/nvidia.com~1gpu" },
        { Op := "add", Path := "/spec/containers/0/env", Value := some (PatchValue.envArray []) },
        { Op := "add", Path := "/spec/containers/0/env/-",
          Value := some (PatchValue.envVar { Name := "NVIDIA_VISIBLE_DEVICES", Value := "none" }) }],
       false) := by
  have hnone : ∀ kv ∈ con.Resources.Limits, requestsGPU kv = false := by
    intro kv hkv
    by_cases hp : HasPrefix kv.1 "nvidia.com/" = true
    · simp [requestsGPU, h kv hkv hp]
    · simp [requestsGPU, hp]
  have hany : con.Resources.Limits.any requestsGPU = false := by
    rw [Bool.eq_false_iff]
    intro hc
    obtain ⟨kv, hkv, hg⟩ := List.any_eq_true.mp hc
    rw [hnone kv hkv] at hg
    exact Bool.noConfusion hg
  have htake : con.Resources.Limits.takeWhile (fun kv => !requestsGPU kv) =
      con.Resources.Limits := by
    rw [List.takeWhile_eq_self_iff]
    intro kv hkv
    simp [hnone kv hkv]
  refine ⟨?_, ?_, fun k => present_iff _ k, by decide⟩
  · rw [mutateContainer_fst, htake]
    simp only [hany, Bool.false_eq_true, if_false, List.filter_append]
    rw [filter_eq_nil_of_forall _ ((disallowedBelow con.Env con.Env.length).map (envRemoveOp path)),
      filter_eq_self_of_forall _ (con.Resources.Limits.flatMap
        (resourceOps path con.Resources.Requests))]
    · have hadds : List.filter (fun op => HasPrefix op.Path (path ++ "/resources"))
          (if con.Env = [] then [addEnvArrayOp path] else []) = [] ∧
          List.filter (fun op => HasPrefix op.Path (path ++ "/resources")) [addNoneOp path] = [] := by
        have ha := HasPrefix_resources_adds path
        constructor
        · split
          · simp [List.filter_cons, ha.1]
          · rfl
        · simp [List.filter_cons, ha.2]
      rw [hadds.1, hadds.2, List.nil_append, List.append_nil, List.append_nil]
      apply flatMap_congr_mem
      intro kv hkv
      unfold resourceOps
      by_cases hp : HasPrefix kv.1 "nvidia.com/" = true
      · simp [hp, h kv hkv hp]
      · simp [hp]
    · intro op hop
      obtain ⟨x, _, hx⟩ := List.mem_flatMap.mp hop
      exact HasPrefix_resources path _ x op hx
    · intro op hop
      obtain ⟨i, _, rfl⟩ := List.mem_map.mp hop
      exact HasPrefix_resources_envRemoveOp path i
  · intro kv _ hp
    exact (append_TrimPrefix kv.1 "nvidia.com/" hp).symm

/-- Witness of C9: `zeroGpuContainer` has the single limit `nvidia.com/gpu: 0`. -/
theorem mutateContainer_resource_removes_witness :
    (∀ kv ∈ zeroGpuContainer.Resources.Limits,
      HasPrefix kv.1 "nvidia.com/" = true → kv.2.IsZero = true) ∧
    (mutateContainer "/spec/containers/0" zeroGpuContainer).1.filter
        (fun op => HasPrefix op.Path ("/spec/containers/0" ++ "/resources")) =
      [{ Op := "remove", Path := "/spec/containers/0/resources/limits/nvidia.com~1gpu" },
       { Op := "remove", Path := "/spec/containers/0/resources/requests/nvidia.com~1gpu" }] :=
  have h : ∀ kv ∈ zeroGpuContainer.Resources.Limits,
      HasPrefix kv.1 "nvidia.com/" = true → kv.2.IsZero = true := by decide
  ⟨h, (mutateContainer_resource_removes "/spec/containers/0" zeroGpuContainer h).1.trans
    (by decide)⟩

/-- C10 fails on the code: only the `/` of the prefix is escaped.  For the zero-valued
limit key `nvidia.com/a/b` the segment embedded in the limit and request paths is
`nvidia.com~1a/b`, not the escaping `nvidia.com~1a~1b` of the key, and unescaping the
last segment of the emitted path gives `b`; for the key `nvidia.com/a~1b` the segment
is `nvidia.com~1a~1b`, which unescapes to the different key `nvidia.com/a/b`. -/
theorem mutateContainer_variant_not_escaped :
    mutateContainer "/spec/containers/0" slashKeyContainer =
      ([{ Op := "remove", Path := "/spec/containers/0/resources/limits/nvidia.com~1a/b" },
        { Op := "remove", Path := "/spec/containers/0/resources/requests/nvidia.com~1a/b" },
        { Op := "add", Path := "/spec/containers/0/env", Value := some (PatchValue.envArray []) },
        { Op := "add", Path := "/spec/containers/0/env/-",
          Value := some (PatchValue.envVar { Name := "NVIDIA_VISIBLE_DEVICES", Value := "none" }) }],
       false) ∧
    escapeJSONPointer "nvidia.com/a/b" = "nvidia.com~1a~1b" ∧
    "/spec/containers/0/resources/limits/nvidia.com~1a/b" ≠
      "/spec/containers/0/resources/limits/" ++ escapeJSONPointer "nvidia.com/a/b" ∧
    unescapeChars (lastSegment "/spec/containers/0/resources/limits/nvidia.com~1a/b".data) =
      "b".data ∧
    (mutateContainer "/spec/containers/0" tildeKeyContainer).1.head? = some
      { Op := "remove", Path := "/spec/containers/0/resources/limits/nvidia.com~1a~1b" } ∧
    escapeJSONPointer "nvidia.com/a~1b" = "nvidia.com~1a~01b" ∧
    unescapeChars (lastSegment "/spec/containers/0/resources/limits/nvidia.com~1a~1b".data) =
      "nvidia.com/a/b".data := by
  decide

/-! ## The extent of the escaping done by `mutateContainer` -/

theorem escapeChars_append (a b : List Char) :
    escapeChars (a ++ b) = escapeChars a ++ escapeChars b := by
  induction a with
  | nil => rfl
  | cons c cs ih =>
    simp only [List.cons_append, escapeChars]
    split
    · simp [ih]
    · split <;> simp [ih]

theorem escapeChars_plain (v : List Char) (h : ∀ c ∈ v, c ≠ '/' ∧ c ≠ '~') :
    escapeChars v = v := by
  induction v with
  | nil => rfl
  | cons c cs ih =>
    have hc := h c (List.mem_cons_self _ _)
    simp only [escapeChars, hc.1, hc.2, if_false]
    rw [ih (fun x hx => h x (List.mem_cons_of_mem _ hx))]

/-- The segment that `mutateContainer` embeds for a limit key is the escaping of the
key when nothing after the prefix `nvidia.com/` is a `/` or a `~`. -/
theorem segment_eq_escape_of_plain_variant (k : String)
    (hp : HasPrefix k "nvidia.com/" = true)
    (hplain : ∀ c ∈ (TrimPrefix k "nvidia.com/").data, c ≠ '/' ∧ c ≠ '~') :
    "nvidia.com~1" ++ TrimPrefix k "nvidia.com/" = escapeJSONPointer k := by
  have hk := append_TrimPrefix k "nvidia.com/" hp
  apply String.ext
  unfold escapeJSONPointer
  rw [String.data_append]
  conv_rhs => rw [← hk, String.data_append, escapeChars_append, escapeChars_plain _ hplain]
  rfl

/-! ## Lemmas on the eligibility filter and on `mutate` -/

theorem inIgnoredList_iff (ns : String) (l : List String) :
    inIgnoredList ns l = true ↔ ns ∈ l := by
  induction l with
  | nil => simp [inIgnoredList]
  | cons a l ih =>
    unfold inIgnoredList
    by_cases h : ns = a
    · simp [h]
    · simp [h, ih]

theorem length_pos_iff_ne_empty (s : String) : s.length > 0 ↔ s ≠ "" := by
  cases s with
  | mk d =>
    cases d with
    | nil => simp [String.length]
    | cons c cs =>
      simp only [String.length, List.length_cons, gt_iff_lt, Nat.zero_lt_succ, true_iff]
      intro h
      have := congrArg String.data h
      simp at this

theorem isNotebook_eq_true_iff (ignoredList : List String) (metadata : ObjectMeta) :
    isNotebook ignoredList metadata = true ↔
      metadata.Namespace ∉ ignoredList ∧
      ∃ v, (metadata.Labels.getD []).lookup "notebook-name" = some v ∧ v ≠ "" := by
  have hcore : ∀ o : Option String,
      ((if (o.getD "").length > 0 then true else false) = true ↔ ∃ v, o = some v ∧ v ≠ "") := by
    intro o
    cases o with
    | none =>
      have h0 : ¬ (("" : String).length > 0) := by decide
      simp only [Option.getD_none, h0, if_false]
      constructor
      · intro h; exact Bool.noConfusion h
      · rintro ⟨v, hv, _⟩; cases hv
    | some v =>
      simp only [Option.getD_some]
      by_cases hv : v.length > 0
      · simp only [hv, if_true, true_iff]
        exact ⟨v, rfl, (length_pos_iff_ne_empty v).mp hv⟩
      · simp only [hv, if_false]
        constructor
        · intro h; exact Bool.noConfusion h
        · rintro ⟨w, hw, hne⟩
          cases hw
          exact absurd ((length_pos_iff_ne_empty v).mpr hne) hv
  unfold isNotebook
  cases hin : inIgnoredList metadata.Namespace ignoredList with
  | true =>
    have := (inIgnoredList_iff _ _).mp hin
    simp [this]
  | false =>
    have hnot : metadata.Namespace ∉ ignoredList := by
      intro hc
      rw [(inIgnoredList_iff _ _).mpr hc] at hin
      exact Bool.noConfusion hin
    simp only [Bool.false_eq_true, if_false, hnot, not_false_eq_true, true_and]
    cases metadata.Labels <;> exact hcore _

theorem mutate_of_not_notebook (json : Json) (ar : AdmissionReview) (req : AdmissionRequest)
    (pod : Pod) (hreq : ar.Request = some req)
    (hpod : json.Unmarshal req.Object.Raw = Except.ok pod)
    (hn : isNotebook ignoredNamespaces pod.ObjectMeta = false) :
    mutate json ar = Except.ok { Allowed := true } := by
  unfold mutate
  simp only [hreq, hpod, hn]
  rfl

theorem mutate_of_patched (json : Json) (ar : AdmissionReview) (req : AdmissionRequest)
    (pod : Pod) (bytes : Bytes) (hreq : ar.Request = some req)
    (hpod : json.Unmarshal req.Object.Raw = Except.ok pod)
    (hn : isNotebook ignoredNamespaces pod.ObjectMeta = true)
    (hg : (mutatePodSpec "/spec" pod.Spec).2 = false)
    (hm : json.Marshal (mutatePodSpec "/spec" pod.Spec).1 = Except.ok bytes) :
    mutate json ar = Except.ok
      { Allowed := true, Patch := some bytes, PatchType := some PatchType.JSONPatch } := by
  unfold mutate
  simp only [hreq, hpod, hn, hg, hm]
  rfl

theorem mutate_patch_allowed (json : Json) (ar : AdmissionReview) (resp : AdmissionResponse)
    (h : mutate json ar = Except.ok resp) (hp : resp.Patch ≠ none) : resp.Allowed = true := by
  unfold mutate at h
  split at h
  · cases h
  · split at h
    · cases h; exact absurd rfl hp
    · split at h
      · cases h; rfl
      · dsimp only at h
        split at h
        · cases h; rfl
        · split at h
          · cases h; exact absurd rfl hp
          · cases h; rfl

theorem mutate_ok_of_request (json : Json) (ar : AdmissionReview) (req : AdmissionRequest)
    (hreq : ar.Request = some req) : ∃ resp, mutate json ar = Except.ok resp := by
  unfold mutate
  simp only [hreq]
  split
  · exact ⟨_, rfl⟩
  · split
    · exact ⟨_, rfl⟩
    · split
      · exact ⟨_, rfl⟩
      · split <;> exact ⟨_, rfl⟩

theorem not_podNeedsGPU (path : String) (podSpec : PodSpec)
    (h : ¬ ∃ c ∈ podSpec.InitContainers ++ podSpec.Containers, ∃ kv ∈ c.Resources.Limits,
      HasPrefix kv.1 "nvidia.com/" = true ∧ kv.2.IsZero = false) :
    (mutatePodSpec path podSpec).2 = false := by
  rw [Bool.eq_false_iff]
  intro hc
  apply h
  obtain ⟨c, hmem, hany⟩ := (podNeedsGPU_iff path podSpec).mp hc
  obtain ⟨kv, hkv, hg⟩ := List.any_eq_true.mp hany
  exact ⟨c, hmem, kv, hkv, (requestsGPU_iff kv).mp hg⟩

theorem withPaths_eq_enumFrom (path kind : String) (cs : List Container) (i : Nat) :
    withPaths path kind cs i =
      (cs.enumFrom i).map (fun ic => (path ++ "/" ++ kind ++ "/" ++ formatInt ic.1, ic.2)) := by
  induction cs generalizing i with
  | nil => rfl
  | cons c cs ih => simp [withPaths, List.enumFrom_cons, ih]

theorem sprintf_initContainers (path : String) (i : Nat) :
    path ++ "/" ++ "initContainers" ++ "/" ++ formatInt i =
      path ++ "/initContainers/" ++ formatInt i := by
  apply String.ext
  simp [String.data_append]

theorem sprintf_containers (path : String) (i : Nat) :
    path ++ "/" ++ "containers" ++ "/" ++ formatInt i =
      path ++ "/containers/" ++ formatInt i := by
  apply String.ext
  simp [String.data_append]

theorem takeWhile_of_any_false {α : Type} (f : α → Bool) (l : List α)
    (h : l.any f = false) : l.takeWhile (fun x => !f x) = l := by
  rw [List.takeWhile_eq_self_iff]
  intro x hx
  have hx2 : f x = false := by
    by_contra hc
    have : l.any f = true := List.any_eq_true.mpr ⟨x, hx, by simpa using hc⟩
    rw [h] at this
    exact Bool.noConfusion this
  simp [hx2]

theorem limitsLoop_of_no_nvidia (path : String) (requests : ResourceList)
    (l : List (String × Quantity)) (p : List patchOperation)
    (h : ∀ kv ∈ l, HasPrefix kv.1 "nvidia.com/" = false) :
    limitsLoop path requests l p = (p, false) := by
  induction l with
  | nil => rfl
  | cons kv rest ih =>
    obtain ⟨name, value⟩ := kv
    have hk : HasPrefix name "nvidia.com/" = false := h (name, value) (List.mem_cons_self _ _)
    unfold limitsLoop
    simp only [hk, Bool.false_eq_true, if_false]
    exact ih (fun x hx => h x (List.mem_cons_of_mem _ hx))

theorem mutateContainer_of_no_nvidia (path : String) (con : Container)
    (h : ∀ kv ∈ con.Resources.Limits, HasPrefix kv.1 "nvidia.com/" = false) :
    mutateContainer path con =
      ((disallowedBelow con.Env con.Env.length).map (envRemoveOp path) ++
        ((if con.Env = [] then [addEnvArrayOp path] else []) ++ [addNoneOp path]), false) := by
  unfold mutateContainer
  simp only [limitsLoop_of_no_nvidia path _ _ _ h, envLoop_eq]
  by_cases he : con.Env = []
  · simp [he, addEnvArrayOp, addNoneOp]
  · simp [he, addEnvArrayOp, addNoneOp]

/-! ## Claims C11 to C17 and C20: eligibility, the pod patch and the protocol handler -/

/-- C11: `isNotebook` returns true if and only if the namespace is not in the
ignore-list and the labels (empty when absent) hold a non-empty value under
`notebook-name`; for a namespace in the ignore-list it returns false even when that
label is set, as for the pod in `kube-system` labelled `notebook-name: foo`. -/
theorem isNotebook_iff (ignoredList : List String) (metadata : ObjectMeta) :
    (isNotebook ignoredList metadata = true ↔
      metadata.Namespace ∉ ignoredList ∧
      ∃ v, (metadata.Labels.getD []).lookup "notebook-name" = some v ∧ v ≠ "") ∧
    (metadata.Namespace ∈ ignoredList → isNotebook ignoredList metadata = false) ∧
    isNotebook ignoredNamespaces
      { Namespace := "kube-system", Labels := some [("notebook-name", "foo")] } = false := by
  refine ⟨isNotebook_eq_true_iff ignoredList metadata, ?_, by decide⟩
  intro hin
  rw [Bool.eq_false_iff]
  intro hc
  exact ((isNotebook_eq_true_iff ignoredList metadata).mp hc).1 hin

/-- Witness of C11: the namespace of `systemPod` is in the ignore-list, so the pod
is not eligible although it carries the label `notebook-name`. -/
theorem isNotebook_iff_witness :
    systemPod.ObjectMeta.Namespace ∈ ignoredNamespaces ∧
    (systemPod.ObjectMeta.Labels.getD []).lookup "notebook-name" = some "foo" ∧
    isNotebook ignoredNamespaces systemPod.ObjectMeta = false :=
  ⟨by decide, by decide,
   (isNotebook_iff ignoredNamespaces systemPod.ObjectMeta).2.1 (by decide)⟩

/-- C12: a pod that decodes successfully and is out of scope (namespace `kube-system`
or `kube-public`, or no non-empty `notebook-name` label) is answered with
allowed = true and no patch, patch type or result; the answer is the same for every
other pod spec under the same metadata. -/
theorem mutate_out_of_scope (json : Json) (ar : AdmissionReview) (req : AdmissionRequest)
    (pod : Pod) (hreq : ar.Request = some req)
    (hpod : json.Unmarshal req.Object.Raw = Except.ok pod)
    (hout : pod.ObjectMeta.Namespace = "kube-system" ∨ pod.ObjectMeta.Namespace = "kube-public" ∨
      ¬ ∃ v, (pod.ObjectMeta.Labels.getD []).lookup "notebook-name" = some v ∧ v ≠ "") :
    mutate json ar = Except.ok
      { UID := "", Allowed := true, Result := none, Patch := none, PatchType := none } ∧
    ∀ (json2 : Json) (spec2 : PodSpec),
      json2.Unmarshal req.Object.Raw = Except.ok { pod with Spec := spec2 } →
      mutate json2 ar = mutate json ar := by
  have hn : isNotebook ignoredNamespaces pod.ObjectMeta = false := by
    rw [Bool.eq_false_iff]
    intro hc
    obtain ⟨hns, hlabel⟩ := (isNotebook_eq_true_iff _ _).mp hc
    rcases hout with h | h | h
    · exact hns (by rw [h]; decide)
    · exact hns (by rw [h]; decide)
    · exact h hlabel
  have h1 := mutate_of_not_notebook json ar req pod hreq hpod hn
  refine ⟨h1, ?_⟩
  intro json2 spec2 hpod2
  rw [h1]
  exact mutate_of_not_notebook json2 ar req { pod with Spec := spec2 } hreq hpod2 hn

/-- Witness of C12: the pod `systemPod` lives in `kube-system` and carries the label. -/
theorem mutate_out_of_scope_witness :
    (systemPod.ObjectMeta.Namespace = "kube-system" ∨
      systemPod.ObjectMeta.Namespace = "kube-public" ∨
      ¬ ∃ v, (systemPod.ObjectMeta.Labels.getD []).lookup "notebook-name" = some v ∧ v ≠ "") ∧
    mutate (constJson systemPod) someReview = Except.ok
      { UID := "", Allowed := true, Result := none, Patch := none, PatchType := none } :=
  ⟨Or.inl rfl,
   (mutate_out_of_scope (constJson systemPod) someReview
      { UID := "705ab4f5", Object := { Raw := [123, 125] } } systemPod rfl rfl (Or.inl rfl)).1⟩

/-- C13: when no container of the pod is GPU-requesting, the patch list of
`mutatePodSpec` is the concatenation of the patch lists of `mutateContainer` at
`<path>/initContainers/<i>` for the init containers in increasing `i`, followed by
those at `<path>/containers/<j>` for the regular containers in increasing `j`, each
index being the container's position in its list; `path` is `/spec` in `mutate`. -/
theorem mutatePodSpec_patches_concat (path : String) (podSpec : PodSpec)
    (h : ¬ ∃ c ∈ podSpec.InitContainers ++ podSpec.Containers, ∃ kv ∈ c.Resources.Limits,
      HasPrefix kv.1 "nvidia.com/" = true ∧ kv.2.IsZero = false) :
    (mutatePodSpec path podSpec).2 = false ∧
    (mutatePodSpec path podSpec).1 =
      podSpec.InitContainers.enum.flatMap
          (fun ic => (mutateContainer (path ++ "/initContainers/" ++ formatInt ic.1) ic.2).1) ++
        podSpec.Containers.enum.flatMap
          (fun ic => (mutateContainer (path ++ "/containers/" ++ formatInt ic.1) ic.2).1) := by
  have hg := not_podNeedsGPU path podSpec h
  refine ⟨hg, ?_⟩
  rw [mutatePodSpec_fst]
  rw [mutatePodSpec_snd] at hg
  rw [takeWhile_of_any_false _ _ hg]
  unfold scanOrder
  rw [List.flatMap_append, withPaths_eq_enumFrom, withPaths_eq_enumFrom]
  simp only [List.enum, List.flatMap_map, containerPatches, sprintf_initContainers,
    sprintf_containers]

/-- Witness of C13: the three containers of `plainPod`, none with a nonzero GPU limit. -/
theorem mutatePodSpec_patches_concat_witness :
    (¬ ∃ c ∈ plainPod.Spec.InitContainers ++ plainPod.Spec.Containers,
      ∃ kv ∈ c.Resources.Limits, HasPrefix kv.1 "nvidia.com/" = true ∧ kv.2.IsZero = false) ∧
    (mutatePodSpec "/spec" plainPod.Spec).1 =
      (mutateContainer "/spec/initContainers/0" zeroGpuContainer).1 ++
        ((mutateContainer "/spec/containers/0" plainContainer).1 ++
          (mutateContainer "/spec/containers/1" { Name := "sidecar" }).1) :=
  have h : ¬ ∃ c ∈ plainPod.Spec.InitContainers ++ plainPod.Spec.Containers,
      ∃ kv ∈ c.Resources.Limits, HasPrefix kv.1 "nvidia.com/" = true ∧ kv.2.IsZero = false := by
    decide
  ⟨h, (mutatePodSpec_patches_concat "/spec" plainPod.Spec h).2.trans (by decide)⟩

/-- C14: for a pod that decodes successfully, is in scope and has no GPU-requesting
container, `mutate` answers allowed = true with patch type JSONPatch and, as patch, the
serialization `bytes` of exactly the list returned by `mutatePodSpec("/spec", pod.Spec)`;
and whatever the input, a response of `mutate` that carries a patch has allowed = true. -/
theorem mutate_in_scope_patch (json : Json) (ar : AdmissionReview) (req : AdmissionRequest)
    (pod : Pod) (bytes : Bytes) (hreq : ar.Request = some req)
    (hpod : json.Unmarshal req.Object.Raw = Except.ok pod)
    (hscope : isNotebook ignoredNamespaces pod.ObjectMeta = true)
    (hnogpu : ¬ ∃ c ∈ pod.Spec.InitContainers ++ pod.Spec.Containers,
      ∃ kv ∈ c.Resources.Limits, HasPrefix kv.1 "nvidia.com/" = true ∧ kv.2.IsZero = false)
    (hbytes : json.Marshal (mutatePodSpec "/spec" pod.Spec).1 = Except.ok bytes) :
    mutate json ar = Except.ok
      { UID := "", Allowed := true, Result := none, Patch := some bytes,
        PatchType := some PatchType.JSONPatch } ∧
    ∀ (json2 : Json) (ar2 : AdmissionReview) (resp : AdmissionResponse),
      mutate json2 ar2 = Except.ok resp → resp.Patch ≠ none → resp.Allowed = true :=
  ⟨mutate_of_patched json ar req pod bytes hreq hpod hscope
      (not_podNeedsGPU "/spec" pod.Spec hnogpu) hbytes,
   fun json2 ar2 resp hresp hpatch => mutate_patch_allowed json2 ar2 resp hresp hpatch⟩

/-- Witness of C14: the notebook pod `plainPod`, whose patch list is encoded as the
bytes of `[]` by `constJson`. -/
theorem mutate_in_scope_patch_witness :
    isNotebook ignoredNamespaces plainPod.ObjectMeta = true ∧
    mutate (constJson plainPod) someReview = Except.ok
      { UID := "", Allowed := true, Result := none, Patch := some [91, 93],
        PatchType := some PatchType.JSONPatch } :=
  ⟨by decide,
   (mutate_in_scope_patch (constJson plainPod) someReview
      { UID := "705ab4f5", Object := { Raw := [123, 125] } } plainPod [91, 93] rfl rfl
      (by decide) (by decide) rfl).1⟩

/-- C17: a container whose limits hold no key starting with `nvidia.com/` gets from
`mutateContainer` the same result, needsGPU = false and the same patch list, as the
same container with its limits emptied, and this result does not depend on the
container's requests. -/
theorem mutateContainer_without_nvidia_limits (path : String) (con : Container)
    (requests2 : ResourceList)
    (h : ∀ kv ∈ con.Resources.Limits, HasPrefix kv.1 "nvidia.com/" = false) :
    mutateContainer path con = mutateContainer path (con.withLimits []) ∧
    (mutateContainer path con).2 = false ∧
    mutateContainer path
        { con with Resources := { Limits := con.Resources.Limits, Requests := requests2 } } =
      mutateContainer path (con.withLimits []) := by
  have h1 := mutateContainer_of_no_nvidia path con h
  have h2 := mutateContainer_of_no_nvidia path (con.withLimits [])
    (fun kv hkv => by simp [Container.withLimits] at hkv)
  have h3 := mutateContainer_of_no_nvidia path
    { con with Resources := { Limits := con.Resources.Limits, Requests := requests2 } } h
  refine ⟨?_, ?_, ?_⟩
  · rw [h1, h2]; rfl
  · rw [h1]
  · rw [h3, h2]; rfl

/-- Witness of C17: `plainContainer` with the limits `cpu` and `memory`. -/
theorem mutateContainer_without_nvidia_limits_witness :
    (∀ kv ∈ (plainContainer.withLimits [("cpu", qty 2), ("memory", qty 4)]).Resources.Limits,
      HasPrefix kv.1 "nvidia.com/" = false) ∧
    mutateContainer "/spec/containers/0"
        (plainContainer.withLimits [("cpu", qty 2), ("memory", qty 4)]) =
      mutateContainer "/spec/containers/0"
        ((plainContainer.withLimits [("cpu", qty 2), ("memory", qty 4)]).withLimits []) :=
  have h : ∀ kv ∈ (plainContainer.withLimits [("cpu", qty 2), ("memory", qty 4)]).Resources.Limits,
      HasPrefix kv.1 "nvidia.com/" = false := by decide
  ⟨h, (mutateContainer_without_nvidia_limits "/spec/containers/0"
    (plainContainer.withLimits [("cpu", qty 2), ("memory", qty 4)]) [] h).1⟩

/-- C20: the classification ignores the requests: changing the requests of a
container does not change needsGPU.  A container without a `nvidia.com/` limit is not
GPU-requesting whatever its requests, its patch list holds the append of
`NVIDIA_VISIBLE_DEVICES=none` and no operation under `<path>/resources`; for requests
`nvidia.com/gpu: 1` and no limits the output is the two `add` operations. -/
theorem mutateContainer_ignores_requests (path : String) (con : Container)
    (requests2 : ResourceList) :
    (mutateContainer path
        { con with Resources := { Limits := con.Resources.Limits, Requests := requests2 } }).2 =
      (mutateContainer path con).2 ∧
    ((∀ kv ∈ con.Resources.Limits, HasPrefix kv.1 "nvidia.com/" = false) →
      (mutateContainer path con).2 = false ∧
      (mutateContainer path con).1.getLast? = some (addNoneOp path) ∧
      ∀ op ∈ (mutateContainer path con).1, HasPrefix op.Path (path ++ "/resources") = false) ∧
    mutateContainer "/spec/containers/0"
        { Resources := { Requests := [("nvidia.com/gpu", { value := 1, scale := 0 })] } } =
      ([{ Op := "add", Path := "/spec/containers/0/env", Value := some (PatchValue.envArray []) },
        { Op := "add", Path := "/spec/containers/0/env/-",
          Value := some (PatchValue.envVar { Name := "NVIDIA_VISIBLE_DEVICES", Value := "none" }) }],
       false) := by
  refine ⟨?_, ?_, by decide⟩
  · rw [mutateContainer_snd, mutateContainer_snd]
  · intro h
    rw [mutateContainer_of_no_nvidia path con h]
    refine ⟨rfl, ?_, ?_⟩
    · rw [← List.append_assoc, List.getLast?_append]
      rfl
    · intro op hop
      rcases List.mem_append.mp hop with hop | hop
      · obtain ⟨i, _, rfl⟩ := List.mem_map.mp hop
        exact HasPrefix_resources_envRemoveOp path i
      · rcases List.mem_append.mp hop with hop | hop
        · split at hop
          · rw [List.mem_singleton] at hop; subst hop
            exact (HasPrefix_resources_adds path).1
          · simp at hop
        · rw [List.mem_singleton] at hop; subst hop
          exact (HasPrefix_resources_adds path).2

/-- Witness of C20: `requestOnlyContainer` has the request `nvidia.com/gpu: 1` and
no limit; it is not GPU-requesting and no operation touches its resources. -/
theorem mutateContainer_ignores_requests_witness :
    (∀ kv ∈ requestOnlyContainer.Resources.Limits, HasPrefix kv.1 "nvidia.com/" = false) ∧
    (mutateContainer "/spec/containers/0" requestOnlyContainer).2 = false ∧
    (mutateContainer "/spec/containers/0" requestOnlyContainer).1.getLast? =
      some (addNoneOp "/spec/containers/0") ∧
    ∀ op ∈ (mutateContainer "/spec/containers/0" requestOnlyContainer).1,
      HasPrefix op.Path ("/spec/containers/0" ++ "/resources") = false :=
  have h : ∀ kv ∈ requestOnlyContainer.Resources.Limits,
      HasPrefix kv.1 "nvidia.com/" = false := by decide
  ⟨h, (mutateContainer_ignores_requests "/spec/containers/0" requestOnlyContainer []).2.1 h⟩

theorem buildReview_of_request (json : Json) (ar : AdmissionReview) (req : AdmissionRequest)
    (mresp : AdmissionResponse) (hreq : ar.Request = some req)
    (hm : mutate json ar = Except.ok mresp) :
    buildReview json ar none = Except.ok { Response := some { mresp with UID := req.UID } } := by
  unfold buildReview
  simp only [hm, hreq]

theorem serve_of_review (json : Json) (env : ServeEnv) (r : HttpRequest)
    (review : AdmissionReview) (bytes : Bytes) (hbody : r.Body ≠ [])
    (hct : r.ContentType = "application/json")
    (hb : buildReview json (env.Decode r.Body).1 (env.Decode r.Body).2 = Except.ok review)
    (hm : env.Marshal review = Except.ok bytes) (hw : env.Write bytes = none) :
    serve json env r = Except.ok [HttpEvent.write bytes] := by
  unfold serve
  have hlen : (r.Body.length == 0) = false := by
    cases hB : r.Body with
    | nil => exact absurd hB hbody
    | cons a l => rfl
  simp only [hlen, hct, hb, hm, hw]
  rfl

/-- C15: for an envelope that decodes successfully and whose request carries the
identifier `req.UID`, the response envelope built by `serve` holds the response of
`mutate` with its UID set to `req.UID`, whichever response `mutate` gives, and that
envelope is what `serve` serializes and writes. -/
theorem serve_echoes_uid (json : Json) (env : ServeEnv) (r : HttpRequest)
    (ar : AdmissionReview) (req : AdmissionRequest) (hbody : r.Body ≠ [])
    (hct : r.ContentType = "application/json") (hdec : env.Decode r.Body = (ar, none))
    (hreq : ar.Request = some req) :
    ∃ mresp review resp, mutate json ar = Except.ok mresp ∧
      buildReview json ar none = Except.ok review ∧
      review.Response = some resp ∧ resp.UID = req.UID ∧
      resp = { mresp with UID := req.UID } ∧
      ∀ bytes, env.Marshal review = Except.ok bytes → env.Write bytes = none →
        serve json env r = Except.ok [HttpEvent.write bytes] := by
  obtain ⟨mresp, hm⟩ := mutate_ok_of_request json ar req hreq
  have hb := buildReview_of_request json ar req mresp hreq hm
  refine ⟨mresp, _, _, hm, hb, rfl, rfl, rfl, ?_⟩
  intro bytes hbytes hw
  apply serve_of_review json env r _ bytes hbody hct _ hbytes hw
  rw [hdec]
  exact hb

/-- Witness of C15: the review `someReview` with UID `705ab4f5`, decoding to the pod
`mixedPod`. -/
theorem serve_echoes_uid_witness :
    jsonRequest.Body ≠ [] ∧ jsonRequest.ContentType = "application/json" ∧
    (constEnv someReview).Decode jsonRequest.Body = (someReview, none) ∧
    ∃ mresp review resp, mutate mixedPodJson someReview = Except.ok mresp ∧
      buildReview mixedPodJson someReview none = Except.ok review ∧
      review.Response = some resp ∧ resp.UID = "705ab4f5" ∧
      resp = { mresp with UID := "705ab4f5" } ∧
      ∀ bytes, (constEnv someReview).Marshal review = Except.ok bytes →
        (constEnv someReview).Write bytes = none →
        serve mixedPodJson (constEnv someReview) jsonRequest =
          Except.ok [HttpEvent.write bytes] :=
  ⟨by decide, rfl, rfl,
   serve_echoes_uid mixedPodJson (constEnv someReview) jsonRequest someReview
     { UID := "705ab4f5", Object := { Raw := [123, 125] } } (by decide) rfl rfl rfl⟩

/-- C16 fails on the code: for an envelope that decodes successfully to a review
without a request, `mutate` dereferences the nil request and panics instead of
returning a response, so `serve` builds no response envelope and writes nothing,
although `serve` itself guards its own use of the request with a nil test. -/
theorem serve_panics_without_request (json : Json) (resp : Option AdmissionResponse) :
    mutate json { Request := none, Response := resp } =
      Except.error "invalid memory address or nil pointer dereference" ∧
    buildReview json { Request := none, Response := resp } none =
      Except.error "invalid memory address or nil pointer dereference" ∧
    serve json (constEnv { Request := none, Response := resp }) jsonRequest =
      Except.error "invalid memory address or nil pointer dereference" :=
  ⟨rfl, rfl, rfl⟩

/-! ## Lemmas on the reference tokens of the emitted paths -/

theorem digitChar_plain (k : Nat) (hk : k < 10) :
    Nat.digitChar k ≠ '/' ∧ Nat.digitChar k ≠ '~' := by
  interval_cases k <;> decide

theorem toDigitsCore_plain (fuel n : Nat) (ds : List Char) :
    ∀ c ∈ Nat.toDigitsCore 10 fuel n ds, c ∈ ds ∨ (c ≠ '/' ∧ c ≠ '~') := by
  induction fuel generalizing n ds with
  | zero => intro c hc; exact Or.inl (by simpa [Nat.toDigitsCore] using hc)
  | succ f ih =>
    intro c hc
    simp only [Nat.toDigitsCore] at hc
    split at hc
    · rcases List.mem_cons.mp hc with rfl | hc
      · exact Or.inr (digitChar_plain _ (Nat.mod_lt _ (by decide)))
      · exact Or.inl hc
    · rcases ih _ _ c hc with h | h
      · rcases List.mem_cons.mp h with rfl | h
        · exact Or.inr (digitChar_plain _ (Nat.mod_lt _ (by decide)))
        · exact Or.inl h
      · exact Or.inr h

theorem formatInt_plain (i : Nat) : ∀ c ∈ (formatInt i).data, c ≠ '/' ∧ c ≠ '~' := by
  intro c hc
  have hd : (formatInt i).data = Nat.toDigitsCore 10 (i + 1) i [] := rfl
  rw [hd] at hc
  rcases toDigitsCore_plain _ _ _ c hc with h | h
  · simp at h
  · exact h

theorem splitSlash_plain (v : List Char) (h : ∀ c ∈ v, c ≠ '/') : splitSlash v = [v] := by
  induction v with
  | nil => rfl
  | cons c cs ih =>
    have hc : c ≠ '/' := h c (List.mem_cons_self _ _)
    simp only [splitSlash, hc, if_false]
    rw [ih (fun x hx => h x (List.mem_cons_of_mem _ hx))]
    rfl

theorem unescapeChars_plain (v : List Char) (h : ∀ c ∈ v, c ≠ '~') : unescapeChars v = v := by
  induction v with
  | nil => rfl
  | cons c cs ih =>
    have hc : c ≠ '~' := h c (List.mem_cons_self _ _)
    have ih2 := ih (fun x hx => h x (List.mem_cons_of_mem _ hx))
    unfold unescapeChars
    split
    · rename_i heq; cases heq
    · rename_i heq; cases heq; exact absurd rfl hc
    · rename_i heq; cases heq; exact absurd rfl hc
    · rename_i heq; cases heq; rw [ih2]

theorem pointerTokens_env_index (i : Nat) :
    pointerTokens ("/env/".data ++ (formatInt i).data) =
      some ["env".data, (formatInt i).data] := by
  have hs : splitSlash (formatInt i).data = [(formatInt i).data] :=
    splitSlash_plain _ (fun c hc => (formatInt_plain i c hc).1)
  have hu : unescapeChars (formatInt i).data = (formatInt i).data :=
    unescapeChars_plain _ (fun c hc => (formatInt_plain i c hc).2)
  have h1 : pointerTokens ("/env/".data ++ (formatInt i).data) =
      some (("env".data :: splitSlash (formatInt i).data).map unescapeChars) := rfl
  rw [h1, hs]
  simp only [List.map_cons, List.map_nil, hu]
  rfl

theorem relTokens_envRemoveOp (path : String) (i : Nat) :
    relTokens path (envRemoveOp path i) = some ["env".data, (formatInt i).data] := by
  unfold relTokens envRemoveOp
  simp only [String.data_append, List.append_assoc]
  rw [dropPrefix_self_append]
  exact pointerTokens_env_index i

theorem relTokens_addEnvArrayOp (path : String) :
    relTokens path (addEnvArrayOp path) = some ["env".data] := by
  unfold relTokens addEnvArrayOp
  simp only [String.data_append]
  rw [dropPrefix_self_append]
  rfl

theorem relTokens_addNoneOp (path : String) :
    relTokens path (addNoneOp path) = some ["env".data, ['-']] := by
  unfold relTokens addNoneOp
  simp only [String.data_append]
  rw [dropPrefix_self_append]
  rfl

theorem relTokens_limitOp (path v : String) :
    relTokens path { Op := "remove", Path := path ++ "/resources/limits/nvidia.com~1" ++ v } =
      some ("resources".data :: "limits".data ::
        (splitSlash ("nvidia.com~1".data ++ v.data)).map unescapeChars) := by
  unfold relTokens
  simp only [String.data_append, List.append_assoc]
  rw [dropPrefix_self_append]
  rfl

theorem relTokens_requestOp (path v : String) :
    relTokens path { Op := "remove", Path := path ++ "/resources/requests/nvidia.com~1" ++ v } =
      some ("resources".data :: "requests".data ::
        (splitSlash ("nvidia.com~1".data ++ v.data)).map unescapeChars) := by
  unfold relTokens
  simp only [String.data_append, List.append_assoc]
  rw [dropPrefix_self_append]
  rfl

theorem splitSlash_ne_nil (v : List Char) : splitSlash v ≠ [] := by
  induction v with
  | nil => simp [splitSlash]
  | cons c cs ih =>
    simp only [splitSlash]
    split
    · simp
    · cases hs : splitSlash cs with
      | nil => exact absurd hs ih
      | cons t ts => simp [consHead]

/-- The tokens of a segment `nvidia.com~1<v>`: when there is exactly one, it is a key
that starts with `nvidia.com/`. -/
theorem segment_tokens (v : List Char) (k : List Char)
    (h : (splitSlash ("nvidia.com~1".data ++ v)).map unescapeChars = [k]) :
    HasPrefix (String.mk k) "nvidia.com/" = true := by
  cases hs : splitSlash v with
  | nil => exact absurd hs (splitSlash_ne_nil v)
  | cons t ts =>
    have h1 : splitSlash ("nvidia.com~1".data ++ v) = ("nvidia.com~1".data ++ t) :: ts := by
      show consHead 'n' (consHead 'v' (consHead 'i' (consHead 'd' (consHead 'i' (consHead 'a'
        (consHead '.' (consHead 'c' (consHead 'o' (consHead 'm' (consHead '~' (consHead '1'
        (splitSlash v)))))))))))) = _
      rw [hs]
      rfl
    rw [h1, List.map_cons] at h
    have hk : unescapeChars ("nvidia.com~1".data ++ t) = k := (List.cons.inj h).1
    have hk2 : k = "nvidia.com/".data ++ unescapeChars t := by rw [← hk]; rfl
    unfold HasPrefix
    rw [hk2, List.isPrefixOf_iff_prefix]
    exact List.prefix_append _ _

theorem segment_tokens_plain (v : List Char) (h : ∀ c ∈ v, c ≠ '/' ∧ c ≠ '~') :
    (splitSlash ("nvidia.com~1".data ++ v)).map unescapeChars = ["nvidia.com/".data ++ v] := by
  have hs : splitSlash v = [v] := splitSlash_plain v (fun c hc => (h c hc).1)
  have h1 : splitSlash ("nvidia.com~1".data ++ v) = [("nvidia.com~1".data ++ v)] := by
    show consHead 'n' (consHead 'v' (consHead 'i' (consHead 'd' (consHead 'i' (consHead 'a'
      (consHead '.' (consHead 'c' (consHead 'o' (consHead 'm' (consHead '~' (consHead '1'
      (splitSlash v)))))))))))) = _
    rw [hs]
    rfl
  rw [h1, List.map_cons, List.map_nil]
  have h2 : unescapeChars ("nvidia.com~1".data ++ v) = "nvidia.com/".data ++ unescapeChars v := rfl
  rw [h2, unescapeChars_plain v (fun c hc => (h c hc).2)]

/-! ## Lemmas on applying the env operations -/

theorem removeAll_append_right (idxs : List Nat) (l t r : List EnvVar)
    (h : removeAll idxs l = some r) : removeAll idxs (l ++ t) = some (r ++ t) := by
  induction idxs generalizing l with
  | nil =>
    simp only [removeAll] at h ⊢
    rw [Option.some.inj h]
  | cons i is ih =>
    unfold removeAll at h ⊢
    unfold removeAt at h ⊢
    by_cases hi : i < l.length
    · simp only [hi, if_true] at h
      have hi2 : i < (l ++ t).length := by rw [List.length_append]; omega
      simp only [hi2, if_true]
      rw [List.eraseIdx_append_of_lt_length hi]
      exact ih _ h
    · simp only [hi, if_false] at h
      cases h

theorem disallowedBelow_succ (env : List EnvVar) (i : Nat) :
    disallowedBelow env (i + 1) =
      (if disallowedAt env i then [i] else []) ++ disallowedBelow env i := by
  unfold disallowedBelow
  rw [List.range_succ, List.reverse_append]
  simp [List.filter_cons]
  split <;> simp

theorem disallowedBelow_append (l : List EnvVar) (e : EnvVar) (n : Nat) (hn : n ≤ l.length) :
    disallowedBelow (l ++ [e]) n = disallowedBelow l n := by
  unfold disallowedBelow
  apply List.filter_congr
  intro i hi
  rw [List.mem_reverse, List.mem_range] at hi
  unfold disallowedAt
  rw [List.getElem?_append_left (by omega)]

theorem removeAll_disallowedBelow (env : List EnvVar) :
    removeAll (disallowedBelow env env.length) env =
      some (env.filter (fun e => !disallowed e.Name)) := by
  induction env using List.reverseRecOn with
  | nil => rfl
  | append_singleton l e ih =>
    rw [List.length_append, List.length_singleton, disallowedBelow_succ,
      disallowedBelow_append l e l.length (le_refl _)]
    have hat : disallowedAt (l ++ [e]) l.length = disallowed e.Name := by
      unfold disallowedAt
      rw [List.getElem?_append_right (le_refl _)]
      simp
    rw [hat, List.filter_append]
    by_cases hd : disallowed e.Name = true
    · simp only [hd, if_true, List.singleton_append]
      unfold removeAll removeAt
      have hlt : l.length < (l ++ [e]).length := by simp
      simp only [hlt, if_true]
      have he : (l ++ [e]).eraseIdx l.length = l := by
        rw [List.eraseIdx_append_of_length_le (le_refl _)]
        simp
      rw [he, ih]
      simp [List.filter_cons, hd]
    · simp only [hd, Bool.false_eq_true, if_false, List.nil_append]
      rw [removeAll_append_right _ l [e] _ ih]
      simp [List.filter_cons, hd]

theorem applyEnvOps_append (path : String) (a b : List patchOperation)
    (env : Option (List EnvVar)) :
    applyEnvOps path (a ++ b) env =
      match applyEnvOps path a env with
      | some env1 => applyEnvOps path b env1
      | none => none := by
  induction a generalizing env with
  | nil => rfl
  | cons op ops ih =>
    simp only [List.cons_append, applyEnvOps]
    split
    · split
      · split
        · exact ih _
        · rfl
      · exact ih _
    · exact ih _

theorem applyToEnv_envRemoveOp (path : String) (i : Nat) (arr : List EnvVar) :
    applyToEnv (envRemoveOp path i) [(formatInt i).data] (some arr) =
      match removeAt arr i with
      | some arr1 => some (some arr1)
      | none => none := by
  unfold applyToEnv
  have h1 : ¬ (("remove" : String) = "add") := by decide
  have h2 : (envRemoveOp path i).Op = "remove" := rfl
  simp only [h2, h1, if_false, if_true, parseIndex_formatInt]

theorem applyEnvOps_envRemoves (path : String) (idxs : List Nat) (arr : List EnvVar) :
    applyEnvOps path (idxs.map (envRemoveOp path)) (some arr) =
      match removeAll idxs arr with
      | some r => some (some r)
      | none => none := by
  induction idxs generalizing arr with
  | nil => rfl
  | cons i is ih =>
    simp only [List.map_cons, applyEnvOps, relTokens_envRemoveOp, if_true,
      applyToEnv_envRemoveOp, removeAll]
    cases removeAt arr i with
    | none => rfl
    | some arr1 => exact ih arr1

theorem relTokens_resourceOps (path : String) (requests : ResourceList)
    (kv : String × Quantity) :
    ∀ op ∈ resourceOps path requests kv,
      ∃ ts, relTokens path op = some ("resources".data :: ts) := by
  intro op hop
  unfold resourceOps at hop
  split at hop
  · rcases List.mem_cons.mp hop with rfl | hop
    · exact ⟨_, relTokens_limitOp path _⟩
    · split at hop
      · rw [List.mem_singleton] at hop; subst hop
        exact ⟨_, relTokens_requestOp path _⟩
      · simp at hop
  · simp at hop

theorem applyEnvOps_skip (path : String) (ops : List patchOperation)
    (env : Option (List EnvVar))
    (h : ∀ op ∈ ops, ∃ ts, relTokens path op = some ("resources".data :: ts)) :
    applyEnvOps path ops env = some env := by
  induction ops with
  | nil => rfl
  | cons op ops ih =>
    obtain ⟨ts, hts⟩ := h op (List.mem_cons_self _ _)
    have hne : ¬ ("resources".data = "env".data) := by decide
    simp only [applyEnvOps, hts, hne, if_false]
    exact ih (fun x hx => h x (List.mem_cons_of_mem _ hx))

theorem applyEnvOps_adds_empty (path : String) (env : Option (List EnvVar)) :
    applyEnvOps path [addEnvArrayOp path, addNoneOp path] env = some (some [noneEnvVar]) := by
  simp only [applyEnvOps, relTokens_addEnvArrayOp, relTokens_addNoneOp, if_true]
  rfl

theorem applyEnvOps_addNone (path : String) (arr : List EnvVar) :
    applyEnvOps path [addNoneOp path] (some arr) = some (some (arr ++ [noneEnvVar])) := by
  simp only [applyEnvOps, relTokens_addNoneOp, if_true]
  rfl

theorem mutateContainer_fst_of_not_gpu (path : String) (con : Container)
    (h : (mutateContainer path con).2 = false) :
    (mutateContainer path con).1 =
      (disallowedBelow con.Env con.Env.length).map (envRemoveOp path) ++
        (con.Resources.Limits.flatMap (resourceOps path con.Resources.Requests) ++
          ((if con.Env = [] then [addEnvArrayOp path] else []) ++ [addNoneOp path])) := by
  rw [mutateContainer_snd] at h
  rw [mutateContainer_fst, takeWhile_of_any_false _ _ h]
  simp [h]

theorem applyEnvOps_mutateContainer (path : String) (con : Container)
    (h : (mutateContainer path con).2 = false) (start : Option (List EnvVar))
    (hstart : start = some con.Env ∨ (con.Env = [] ∧ start = none)) :
    applyEnvOps path (mutateContainer path con).1 start =
      some (some (con.Env.filter (fun e => !disallowed e.Name) ++ [noneEnvVar])) := by
  rw [mutateContainer_fst_of_not_gpu path con h, applyEnvOps_append]
  have hskip : ∀ env, applyEnvOps path
      (con.Resources.Limits.flatMap (resourceOps path con.Resources.Requests)) env = some env := by
    intro env
    apply applyEnvOps_skip
    intro op hop
    obtain ⟨x, _, hx⟩ := List.mem_flatMap.mp hop
    exact relTokens_resourceOps path _ x op hx
  by_cases he : con.Env = []
  · have hstart2 : applyEnvOps path
        ((disallowedBelow con.Env con.Env.length).map (envRemoveOp path)) start = some start := by
      rw [he]; rfl
    rw [hstart2]
    simp only [applyEnvOps_append, hskip, he, if_true, List.nil_append, List.singleton_append,
      List.filter_nil]
    exact applyEnvOps_adds_empty path start
  · have hs : start = some con.Env := by
      rcases hstart with hs | ⟨hc, _⟩
      · exact hs
      · exact absurd hc he
    rw [hs, applyEnvOps_envRemoves, removeAll_disallowedBelow]
    simp only [applyEnvOps_append, hskip, he, if_false, List.nil_append]
    exact applyEnvOps_addNone path _

/-! ## Lemmas on applying a whole patch list -/

theorem applyPatch_append (path : String) (a b : List patchOperation) (d : ContainerDoc) :
    applyPatch path (a ++ b) d =
      match applyPatch path a d with
      | some d1 => applyPatch path b d1
      | none => none := by
  induction a generalizing d with
  | nil => rfl
  | cons op ops ih =>
    simp only [List.cons_append, applyPatch]
    cases applyOp path op d with
    | none => rfl
    | some d1 => exact ih d1

theorem applyOp_env (path : String) (op : patchOperation) (ts : List (List Char))
    (d : ContainerDoc) (h : relTokens path op = some ("env".data :: ts)) :
    applyOp path op d =
      match applyToEnv op ts d.Env with
      | some e => some { d with Env := e }
      | none => none := by
  unfold applyOp
  simp only [h, if_true]

theorem applyPatch_envOnly (path : String) (ops : List patchOperation) (d : ContainerDoc)
    (h : ∀ op ∈ ops, ∃ ts, relTokens path op = some ("env".data :: ts)) :
    applyPatch path ops d =
      match applyEnvOps path ops d.Env with
      | some e => some { d with Env := e }
      | none => none := by
  induction ops generalizing d with
  | nil => rfl
  | cons op ops ih =>
    obtain ⟨ts, hts⟩ := h op (List.mem_cons_self _ _)
    simp only [applyPatch, applyEnvOps, applyOp_env path op ts d hts, hts, if_true]
    cases applyToEnv op ts d.Env with
    | none => rfl
    | some e => exact ih _ (fun x hx => h x (List.mem_cons_of_mem _ hx))

theorem applyOp_limitOp (path v : String) (d d1 : ContainerDoc)
    (h : applyOp path
      { Op := "remove", Path := path ++ "/resources/limits/nvidia.com~1" ++ v } d = some d1) :
    ∃ k, HasPrefix k "nvidia.com/" = true ∧ removeKey d.Limits k = some d1.Limits ∧
      d1.Env = d.Env ∧ d1.Requests = d.Requests := by
  unfold applyOp at h
  rw [relTokens_limitOp] at h
  have hne : ¬ ("resources".data = "env".data) := by decide
  simp only [hne, if_false, if_true] at h
  cases hT : (splitSlash ("nvidia.com~1".data ++ v.data)).map unescapeChars with
  | nil => rw [hT] at h; cases h
  | cons k rest =>
    cases rest with
    | cons k2 rest2 => rw [hT] at h; cases h
    | nil =>
      rw [hT] at h
      simp only [if_true] at h
      cases hr : removeKey d.Limits (String.mk k) with
      | none => rw [hr] at h; cases h
      | some limits =>
        rw [hr] at h
        cases h
        exact ⟨String.mk k, segment_tokens v.data k hT, hr, rfl, rfl⟩

theorem applyOp_requestOp (path v : String) (d d1 : ContainerDoc)
    (h : applyOp path
      { Op := "remove", Path := path ++ "/resources/requests/nvidia.com~1" ++ v } d = some d1) :
    d1.Limits = d.Limits ∧ d1.Env = d.Env := by
  unfold applyOp at h
  rw [relTokens_requestOp] at h
  have hne : ¬ ("resources".data = "env".data) := by decide
  have hne2 : ¬ ("requests".data = "limits".data) := by decide
  simp only [hne, hne2, if_false, if_true] at h
  cases hT : (splitSlash ("nvidia.com~1".data ++ v.data)).map unescapeChars with
  | nil => rw [hT] at h; cases h
  | cons k rest =>
    cases rest with
    | cons k2 rest2 => rw [hT] at h; cases h
    | nil =>
      rw [hT] at h
      simp only [if_true] at h
      cases hr : removeKey d.Requests (String.mk k) with
      | none => rw [hr] at h; cases h
      | some requests =>
        rw [hr] at h
        cases h
        exact ⟨rfl, rfl⟩

theorem countP_filter_lt (p q : String × Quantity → Bool) (l : ResourceList)
    (h : ∃ e ∈ l, p e = true ∧ q e = false) :
    (l.filter q).countP p < l.countP p := by
  induction l with
  | nil => obtain ⟨e, he, _⟩ := h; cases he
  | cons a l ih =>
    have hle : (l.filter q).countP p ≤ l.countP p :=
      List.Sublist.countP_le _ (List.filter_sublist l)
    obtain ⟨e, he, hp, hq⟩ := h
    rcases List.mem_cons.mp he with rfl | he
    · rw [List.filter_cons, hq]
      simp only [Bool.false_eq_true, if_false, List.countP_cons, hp, if_true]
      omega
    · have := ih ⟨e, he, hp, hq⟩
      rw [List.filter_cons, List.countP_cons]
      split
      · rw [List.countP_cons]; omega
      · split <;> omega

theorem removeKey_count (l l1 : ResourceList) (k : String)
    (hk : HasPrefix k "nvidia.com/" = true) (h : removeKey l k = some l1) :
    l1.countP (fun kv => HasPrefix kv.1 "nvidia.com/") <
      l.countP (fun kv => HasPrefix kv.1 "nvidia.com/") := by
  unfold removeKey at h
  split at h
  · rename_i hp
    obtain ⟨q, hq⟩ := (present_iff l k).mp hp
    cases h
    apply countP_filter_lt
    exact ⟨(k, q), hq, hk, by simp⟩
  · cases h

theorem applyPatch_resourceOps_count (path : String) (requests : ResourceList)
    (L : ResourceList) (d d2 : ContainerDoc)
    (hz : ∀ kv ∈ L, HasPrefix kv.1 "nvidia.com/" = true → kv.2.IsZero = true)
    (h : applyPatch path (L.flatMap (resourceOps path requests)) d = some d2) :
    d2.Env = d.Env ∧
    d2.Limits.countP (fun kv => HasPrefix kv.1 "nvidia.com/") +
        L.countP (fun kv => HasPrefix kv.1 "nvidia.com/") ≤
      d.Limits.countP (fun kv => HasPrefix kv.1 "nvidia.com/") := by
  induction L generalizing d with
  | nil =>
    simp only [List.flatMap_nil, applyPatch] at h
    cases h
    exact ⟨rfl, by simp⟩
  | cons kv rest ih =>
    have hz2 : ∀ x ∈ rest, HasPrefix x.1 "nvidia.com/" = true → x.2.IsZero = true :=
      fun x hx => hz x (List.mem_cons_of_mem _ hx)
    rw [List.flatMap_cons, applyPatch_append] at h
    by_cases hp : HasPrefix kv.1 "nvidia.com/" = true
    · have hzero := hz kv (List.mem_cons_self _ _) hp
      simp only [resourceOps, hp, hzero, Bool.and_self, if_true] at h
      simp only [applyPatch] at h
      cases h1 : applyOp path { Op := "remove", Path := path ++
          "/resources/limits/nvidia.com~1" ++ TrimPrefix kv.1 "nvidia.com/" } d with
      | none => rw [h1] at h; cases h
      | some d1 =>
        rw [h1] at h
        obtain ⟨k, hk, hrm, henv1, _⟩ := applyOp_limitOp path _ d d1 h1
        have hc1 := removeKey_count _ _ k hk hrm
        by_cases hpres : requests.present kv.1 = true
        · simp only [hpres, if_true, applyPatch] at h
          cases h2 : applyOp path { Op := "remove", Path := path ++
              "/resources/requests/nvidia.com~1" ++ TrimPrefix kv.1 "nvidia.com/" } d1 with
          | none => rw [h2] at h; cases h
          | some d1b =>
            rw [h2] at h
            obtain ⟨hl2, henv2⟩ := applyOp_requestOp path _ d1 d1b h2
            obtain ⟨henv3, hc3⟩ := ih d1b hz2 h
            refine ⟨by rw [henv3, henv2, henv1], ?_⟩
            rw [hl2] at hc3
            simp only [List.countP_cons, hp, if_true]
            omega
        · simp only [hpres, Bool.false_eq_true, if_false, applyPatch] at h
          obtain ⟨henv3, hc3⟩ := ih d1 hz2 h
          refine ⟨by rw [henv3, henv1], ?_⟩
          simp only [List.countP_cons, hp, if_true]
          omega
    · simp only [resourceOps, hp, Bool.false_and, Bool.false_eq_true, if_false, applyPatch] at h
      obtain ⟨henv3, hc3⟩ := ih d hz2 h
      refine ⟨henv3, ?_⟩
      simp only [List.countP_cons, hp, Bool.false_eq_true, if_false]
      omega

theorem envOnly_envRemoves (path : String) (idxs : List Nat) :
    ∀ op ∈ idxs.map (envRemoveOp path), ∃ ts, relTokens path op = some ("env".data :: ts) := by
  intro op hop
  obtain ⟨i, _, rfl⟩ := List.mem_map.mp hop
  exact ⟨_, relTokens_envRemoveOp path i⟩

theorem envOnly_adds (path : String) (env : List EnvVar) :
    ∀ op ∈ (if env = [] then [addEnvArrayOp path] else []) ++ [addNoneOp path],
      ∃ ts, relTokens path op = some ("env".data :: ts) := by
  intro op hop
  rcases List.mem_append.mp hop with hop | hop
  · split at hop
    · rw [List.mem_singleton] at hop; subst hop
      exact ⟨_, relTokens_addEnvArrayOp path⟩
    · simp at hop
  · rw [List.mem_singleton] at hop; subst hop
    exact ⟨_, relTokens_addNoneOp path⟩

theorem applyPatch_envOnly_some (path : String) (ops : List patchOperation)
    (d d1 : ContainerDoc)
    (h : ∀ op ∈ ops, ∃ ts, relTokens path op = some ("env".data :: ts))
    (ha : applyPatch path ops d = some d1) :
    applyEnvOps path ops d.Env = some d1.Env ∧ d1.Limits = d.Limits ∧
      d1.Requests = d.Requests := by
  rw [applyPatch_envOnly path ops d h] at ha
  cases he : applyEnvOps path ops d.Env with
  | none => rw [he] at ha; cases ha
  | some e => rw [he] at ha; cases ha; exact ⟨rfl, rfl, rfl⟩

theorem countP_eq_zero_forall (l : ResourceList)
    (h : l.countP (fun kv => HasPrefix kv.1 "nvidia.com/") = 0) :
    ∀ kv ∈ l, HasPrefix kv.1 "nvidia.com/" = false := by
  intro kv hkv
  rw [List.countP_eq_zero] at h
  have := h kv hkv
  simpa using this

theorem zero_of_not_gpu (path : String) (con : Container)
    (h : (mutateContainer path con).2 = false) :
    ∀ kv ∈ con.Resources.Limits, HasPrefix kv.1 "nvidia.com/" = true → kv.2.IsZero = true := by
  intro kv hkv hp
  by_contra hz
  have : (mutateContainer path con).2 = true :=
    (needsGPU_iff path con).mpr ⟨kv, hkv, hp, by simpa using hz⟩
  rw [h] at this
  exact Bool.noConfusion this

theorem toDoc_env_start (con : Container) :
    con.toDoc.Env = some con.Env ∨ (con.Env = [] ∧ con.toDoc.Env = none) := by
  unfold Container.toDoc
  by_cases he : con.Env = []
  · exact Or.inr ⟨he, by simp [he]⟩
  · exact Or.inl (by simp [he])

/-- The document left by the patch list of a container that is not GPU-requesting. -/
theorem applyPatch_mutateContainer (path : String) (con : Container) (doc : ContainerDoc)
    (h : (mutateContainer path con).2 = false)
    (ha : applyPatch path (mutateContainer path con).1 con.toDoc = some doc) :
    doc.Env = some (con.Env.filter (fun e => !disallowed e.Name) ++ [noneEnvVar]) ∧
    ∀ kv ∈ doc.Limits, HasPrefix kv.1 "nvidia.com/" = false := by
  have henvres := applyEnvOps_mutateContainer path con h con.toDoc.Env (toDoc_env_start con)
  rw [mutateContainer_fst_of_not_gpu path con h] at ha henvres
  rw [applyPatch_append] at ha
  cases h1 : applyPatch path ((disallowedBelow con.Env con.Env.length).map (envRemoveOp path))
      con.toDoc with
  | none => rw [h1] at ha; cases ha
  | some d1 =>
    rw [h1] at ha
    simp only [] at ha
    rw [applyPatch_append] at ha
    cases h2 : applyPatch path
        (con.Resources.Limits.flatMap (resourceOps path con.Resources.Requests)) d1 with
    | none => rw [h2] at ha; cases ha
    | some d2 =>
      rw [h2] at ha
      simp only [] at ha
      obtain ⟨he1, hl1, _⟩ := applyPatch_envOnly_some path _ _ _ (envOnly_envRemoves path _) h1
      obtain ⟨he2, hc2⟩ := applyPatch_resourceOps_count path _ _ d1 d2
        (zero_of_not_gpu path con h) h2
      obtain ⟨he3, hl3, _⟩ := applyPatch_envOnly_some path _ _ _ (envOnly_adds path con.Env) ha
      constructor
      · rw [applyEnvOps_append, he1] at henvres
        simp only [] at henvres
        rw [applyEnvOps_append] at henvres
        have hskip : applyEnvOps path
            (con.Resources.Limits.flatMap (resourceOps path con.Resources.Requests)) d1.Env =
            some d1.Env := by
          apply applyEnvOps_skip
          intro op hop
          obtain ⟨x, _, hx⟩ := List.mem_flatMap.mp hop
          exact relTokens_resourceOps path _ x op hx
        rw [hskip] at henvres
        simp only [] at henvres
        rw [← he2, he3] at henvres
        exact Option.some.inj henvres
      · rw [hl3]
        apply countP_eq_zero_forall
        have hd1 : d1.Limits = con.Resources.Limits := by rw [hl1]; rfl
        rw [hd1] at hc2
        omega

/-- A container without `nvidia.com/` limits whose env ends with the entry
`NVIDIA_VISIBLE_DEVICES=none` after entries that are not disallowed is left unchanged
by its own patch list. -/
theorem patched_fixed (path : String) (con : Container) (front : List EnvVar)
    (hl : ∀ kv ∈ con.Resources.Limits, HasPrefix kv.1 "nvidia.com/" = false)
    (henv : con.Env = front ++ [noneEnvVar])
    (hfront : ∀ e ∈ front, disallowed e.Name = false) :
    patched path con = some con := by
  have hm := mutateContainer_of_no_nvidia path con hl
  have h2 : (mutateContainer path con).2 = false := by rw [hm]
  have hne : con.Env ≠ [] := by rw [henv]; simp
  have honly : ∀ op ∈ (mutateContainer path con).1,
      ∃ ts, relTokens path op = some ("env".data :: ts) := by
    rw [hm]
    intro op hop
    rcases List.mem_append.mp hop with hop | hop
    · exact envOnly_envRemoves path _ op hop
    · exact envOnly_adds path con.Env op hop
  have hstart : con.toDoc.Env = some con.Env := by
    unfold Container.toDoc
    simp [hne]
  have hres := applyEnvOps_mutateContainer path con h2 con.toDoc.Env (Or.inl hstart)
  have hfilter : con.Env.filter (fun e => !disallowed e.Name) ++ [noneEnvVar] = con.Env := by
    rw [henv, List.filter_append]
    have hf : front.filter (fun e => !disallowed e.Name) = front := by
      rw [List.filter_eq_self]
      intro e he
      simp [hfront e he]
    have hn : [noneEnvVar].filter (fun e => !disallowed e.Name) = [] := by decide
    rw [hf, hn, List.append_nil]
  unfold patched
  rw [applyPatch_envOnly path _ _ honly, hres, hfilter]
  simp only [Container.ofDoc, Container.toDoc, Option.getD_some]

/-! ## The patch list applies when the GPU keys are well formed -/

theorem present_filter_ne (m : ResourceList) (k key : String) (h : key ≠ k) :
    ResourceList.present (m.filter (fun kv => kv.1 != k)) key = m.present key := by
  rw [Bool.eq_iff_iff, present_iff, present_iff]
  constructor
  · rintro ⟨q, hq⟩
    exact ⟨q, (List.mem_filter.mp hq).1⟩
  · rintro ⟨q, hq⟩
    exact ⟨q, List.mem_filter.mpr ⟨hq, by simpa using h⟩⟩

theorem filter_ne_of_not_present (m : ResourceList) (k : String) (h : m.present k = false) :
    m.filter (fun kv => kv.1 != k) = m := by
  rw [List.filter_eq_self]
  intro e he
  have hne : e.1 ≠ k := by
    intro hc
    have : m.present k = true := (present_iff m k).mpr ⟨e.2, by rw [← hc]; exact he⟩
    rw [h] at this
    exact Bool.noConfusion this
  simpa using hne

theorem relTokens_limitOp_plain (path key : String)
    (hp : HasPrefix key "nvidia.com/" = true)
    (hplain : ∀ c ∈ (TrimPrefix key "nvidia.com/").data, c ≠ '/' ∧ c ≠ '~') :
    relTokens path
        { Op := "remove",
          Path := path ++ "/resources/limits/nvidia.com~1" ++ TrimPrefix key "nvidia.com/" } =
      some ["resources".data, "limits".data, key.data] := by
  rw [relTokens_limitOp, segment_tokens_plain _ hplain, ← String.data_append,
    append_TrimPrefix key "nvidia.com/" hp]

theorem relTokens_requestOp_plain (path key : String)
    (hp : HasPrefix key "nvidia.com/" = true)
    (hplain : ∀ c ∈ (TrimPrefix key "nvidia.com/").data, c ≠ '/' ∧ c ≠ '~') :
    relTokens path
        { Op := "remove",
          Path := path ++ "/resources/requests/nvidia.com~1" ++ TrimPrefix key "nvidia.com/" } =
      some ["resources".data, "requests".data, key.data] := by
  rw [relTokens_requestOp, segment_tokens_plain _ hplain, ← String.data_append,
    append_TrimPrefix key "nvidia.com/" hp]

theorem applyOp_limitOp_plain (path key : String) (d : ContainerDoc)
    (hp : HasPrefix key "nvidia.com/" = true)
    (hplain : ∀ c ∈ (TrimPrefix key "nvidia.com/").data, c ≠ '/' ∧ c ≠ '~')
    (hpres : d.Limits.present key = true) :
    applyOp path
        { Op := "remove",
          Path := path ++ "/resources/limits/nvidia.com~1" ++ TrimPrefix key "nvidia.com/" } d =
      some { d with Limits := d.Limits.filter (fun kv => kv.1 != key) } := by
  unfold applyOp
  rw [relTokens_limitOp_plain path key hp hplain]
  have hne : ¬ ("resources".data = "env".data) := by decide
  simp only [hne, if_false, if_true, removeKey, hpres]

theorem applyOp_requestOp_plain (path key : String) (d : ContainerDoc)
    (hp : HasPrefix key "nvidia.com/" = true)
    (hplain : ∀ c ∈ (TrimPrefix key "nvidia.com/").data, c ≠ '/' ∧ c ≠ '~')
    (hpres : d.Requests.present key = true) :
    applyOp path
        { Op := "remove",
          Path := path ++ "/resources/requests/nvidia.com~1" ++ TrimPrefix key "nvidia.com/" } d =
      some { d with Requests := d.Requests.filter (fun kv => kv.1 != key) } := by
  unfold applyOp
  rw [relTokens_requestOp_plain path key hp hplain]
  have hne : ¬ ("resources".data = "env".data) := by decide
  have hne2 : ¬ ("requests".data = "limits".data) := by decide
  simp only [hne, hne2, if_false, if_true, removeKey, hpres]

theorem applyPatch_resourceOps_plain (path : String) (requests : ResourceList)
    (L : ResourceList) (d : ContainerDoc)
    (hnodup : (L.map Prod.fst).Nodup)
    (hz : ∀ kv ∈ L, HasPrefix kv.1 "nvidia.com/" = true → kv.2.IsZero = true)
    (hplain : ∀ kv ∈ L, HasPrefix kv.1 "nvidia.com/" = true →
      ∀ c ∈ (TrimPrefix kv.1 "nvidia.com/").data, c ≠ '/' ∧ c ≠ '~')
    (ha : ∀ kv ∈ L, HasPrefix kv.1 "nvidia.com/" = true → d.Limits.present kv.1 = true)
    (hb : ∀ kv ∈ L, HasPrefix kv.1 "nvidia.com/" = true →
      d.Requests.present kv.1 = requests.present kv.1) :
    applyPatch path (L.flatMap (resourceOps path requests)) d =
      some { d with
        Limits := d.Limits.filter
          (fun e => !L.any (fun kv => HasPrefix kv.1 "nvidia.com/" && kv.1 == e.1)),
        Requests := d.Requests.filter
          (fun e => !L.any (fun kv => HasPrefix kv.1 "nvidia.com/" && kv.1 == e.1)) } := by
  induction L generalizing d with
  | nil => simp [applyPatch]
  | cons kv rest ih =>
    have hnd := List.nodup_cons.mp hnodup
    have hz2 : ∀ x ∈ rest, HasPrefix x.1 "nvidia.com/" = true → x.2.IsZero = true :=
      fun x hx => hz x (List.mem_cons_of_mem _ hx)
    have hplain2 : ∀ x ∈ rest, HasPrefix x.1 "nvidia.com/" = true →
        ∀ c ∈ (TrimPrefix x.1 "nvidia.com/").data, c ≠ '/' ∧ c ≠ '~' :=
      fun x hx => hplain x (List.mem_cons_of_mem _ hx)
    rw [List.flatMap_cons, applyPatch_append]
    by_cases hp : HasPrefix kv.1 "nvidia.com/" = true
    · have hzero := hz kv (List.mem_cons_self _ _) hp
      have hpl := hplain kv (List.mem_cons_self _ _) hp
      have hne : ∀ x ∈ rest, x.1 ≠ kv.1 := by
        intro x hx hc
        exact hnd.1 (List.mem_map.mpr ⟨x, hx, hc⟩)
      have hstep : applyPatch path (resourceOps path requests kv) d =
          some { d with Limits := d.Limits.filter (fun e => e.1 != kv.1),
                        Requests := d.Requests.filter (fun e => e.1 != kv.1) } := by
        simp only [resourceOps, hp, hzero, Bool.and_self, if_true]
        by_cases hpres : requests.present kv.1 = true
        · have hpres2 : d.Requests.present kv.1 = true := by
            rw [hb kv (List.mem_cons_self _ _) hp]; exact hpres
          simp only [hpres, if_true, applyPatch]
          rw [applyOp_limitOp_plain path kv.1 d hp hpl (ha kv (List.mem_cons_self _ _) hp)]
          simp only []
          rw [applyOp_requestOp_plain path kv.1
            { d with Limits := d.Limits.filter (fun e => e.1 != kv.1) } hp hpl hpres2]
        · have hpres2 : d.Requests.present kv.1 = false := by
            rw [hb kv (List.mem_cons_self _ _) hp]; simpa using hpres
          simp only [hpres, Bool.false_eq_true, if_false, applyPatch]
          rw [applyOp_limitOp_plain path kv.1 d hp hpl (ha kv (List.mem_cons_self _ _) hp)]
          simp only []
          rw [filter_ne_of_not_present d.Requests kv.1 hpres2]
      rw [hstep]
      simp only []
      rw [ih _ (hnd.2) hz2 hplain2]
      · simp only [List.filter_filter, List.any_cons, hp, Bool.true_and]
        congr 2
        · apply List.filter_congr
          intro e _
          by_cases heq : kv.1 = e.1
          · simp [heq]
          · have hb1 : (kv.1 == e.1) = false := by simpa using heq
            have hb2 : (e.1 != kv.1) = true := by
              simpa using (fun hc : e.1 = kv.1 => heq hc.symm)
            rw [hb1, hb2]
            simp
        · apply List.filter_congr
          intro e _
          by_cases heq : kv.1 = e.1
          · simp [heq]
          · have hb1 : (kv.1 == e.1) = false := by simpa using heq
            have hb2 : (e.1 != kv.1) = true := by
              simpa using (fun hc : e.1 = kv.1 => heq hc.symm)
            rw [hb1, hb2]
            simp
      · intro x hx hxp
        show ResourceList.present (d.Limits.filter (fun e => e.1 != kv.1)) x.1 = true
        rw [present_filter_ne _ _ _ (hne x hx)]
        exact ha x (List.mem_cons_of_mem _ hx) hxp
      · intro x hx hxp
        show ResourceList.present (d.Requests.filter (fun e => e.1 != kv.1)) x.1 = _
        rw [present_filter_ne _ _ _ (hne x hx)]
        exact hb x (List.mem_cons_of_mem _ hx) hxp
    · have hstep : applyPatch path (resourceOps path requests kv) d = some d := by
        simp only [resourceOps, hp, Bool.false_and, Bool.false_eq_true, if_false, applyPatch]
      rw [hstep]
      simp only []
      rw [ih d hnd.2 hz2 hplain2 (fun x hx => ha x (List.mem_cons_of_mem _ hx))
        (fun x hx => hb x (List.mem_cons_of_mem _ hx))]
      simp only [List.any_cons, hp, Bool.false_and, Bool.false_or]

theorem any_congr_mem {α : Type} (f g : α → Bool) (l : List α)
    (h : ∀ x ∈ l, f x = g x) : l.any f = l.any g := by
  rw [Bool.eq_iff_iff, List.any_eq_true, List.any_eq_true]
  constructor
  · rintro ⟨x, hx, hf⟩; exact ⟨x, hx, by rw [← h x hx]; exact hf⟩
  · rintro ⟨x, hx, hg⟩; exact ⟨x, hx, by rw [h x hx]; exact hg⟩

theorem zeroGPU_eq_prefix (path : String) (con : Container)
    (h : (mutateContainer path con).2 = false) :
    ∀ kv ∈ con.Resources.Limits, zeroGPU kv = HasPrefix kv.1 "nvidia.com/" := by
  intro kv hkv
  unfold zeroGPU
  by_cases hp : HasPrefix kv.1 "nvidia.com/" = true
  · simp [hp, zero_of_not_gpu path con h kv hkv hp]
  · simp [hp]

/-- When the limit keys are pairwise distinct and nothing after the prefix of a
`nvidia.com/` key is a `/` or a `~`, the patch list of a container that is not
GPU-requesting applies to it and yields the container described by the policy. -/
theorem patched_eq_stripped (path : String) (con : Container)
    (h : (mutateContainer path con).2 = false)
    (hnodup : (con.Resources.Limits.map Prod.fst).Nodup)
    (hplain : ∀ kv ∈ con.Resources.Limits, HasPrefix kv.1 "nvidia.com/" = true →
      ∀ c ∈ (TrimPrefix kv.1 "nvidia.com/").data, c ≠ '/' ∧ c ≠ '~') :
    patched path con = some (stripped con) := by
  have hz := zero_of_not_gpu path con h
  have hzp := zeroGPU_eq_prefix path con h
  -- the env removes
  have hE : ∃ e1, applyPatch path
      ((disallowedBelow con.Env con.Env.length).map (envRemoveOp path)) con.toDoc =
        some { con.toDoc with Env := e1 } ∧
      applyEnvOps path ((if con.Env = [] then [addEnvArrayOp path] else []) ++
        [addNoneOp path]) e1 =
        some (some (con.Env.filter (fun e => !disallowed e.Name) ++ [noneEnvVar])) := by
    by_cases he : con.Env = []
    · refine ⟨none, ?_, ?_⟩
      · rw [he]
        simp [disallowedBelow, applyPatch, Container.toDoc, he]
      · rw [he]
        exact applyEnvOps_adds_empty path none
    · refine ⟨some (con.Env.filter (fun e => !disallowed e.Name)), ?_, ?_⟩
      · rw [applyPatch_envOnly path _ _ (envOnly_envRemoves path _)]
        have hstart : con.toDoc.Env = some con.Env := by
          unfold Container.toDoc; simp [he]
        rw [hstart, applyEnvOps_envRemoves, removeAll_disallowedBelow]
      · simp only [he, if_false, List.nil_append]
        exact applyEnvOps_addNone path _
  obtain ⟨e1, hE1, hA⟩ := hE
  -- the resource removes
  have hR := applyPatch_resourceOps_plain path con.Resources.Requests con.Resources.Limits
    { con.toDoc with Env := e1 } hnodup hz hplain
    (fun kv hkv _ => (present_iff _ _).mpr ⟨kv.2, hkv⟩) (fun _ _ _ => rfl)
  unfold patched
  rw [mutateContainer_fst_of_not_gpu path con h, applyPatch_append, hE1]
  simp only []
  rw [applyPatch_append, hR]
  simp only []
  rw [applyPatch_envOnly path _ _ (envOnly_adds path con.Env)]
  simp only [hA]
  have hL : con.Resources.Limits.filter
      (fun e => !con.Resources.Limits.any
        (fun kv => HasPrefix kv.1 "nvidia.com/" && kv.1 == e.1)) =
      con.Resources.Limits.filter (fun kv => !zeroGPU kv) := by
    apply List.filter_congr
    intro e he
    rw [hzp e he]
    congr 1
    by_cases hp : HasPrefix e.1 "nvidia.com/" = true
    · rw [hp, List.any_eq_true]
      exact ⟨e, he, by simp [hp]⟩
    · have hpf : HasPrefix e.1 "nvidia.com/" = false := by simpa using hp
      rw [hpf, Bool.eq_false_iff]
      intro hc
      obtain ⟨kv, _, hk⟩ := List.any_eq_true.mp hc
      rw [Bool.and_eq_true] at hk
      have heq : kv.1 = e.1 := by simpa using hk.2
      rw [heq] at hk
      exact hp hk.1
  have hQ : con.Resources.Requests.filter
      (fun e => !con.Resources.Limits.any
        (fun kv => HasPrefix kv.1 "nvidia.com/" && kv.1 == e.1)) =
      con.Resources.Requests.filter
        (fun r => !con.Resources.Limits.any (fun kv => zeroGPU kv && kv.1 == r.1)) := by
    apply List.filter_congr
    intro e _
    congr 1
    apply any_congr_mem
    intro kv hkv
    rw [hzp kv hkv]
  simp only [Container.ofDoc, Container.toDoc, stripped, Option.getD_some, hL, hQ]

/-! ## Claims C18 and C19: the patched container -/

/-- C18: for a container that is not GPU-requesting, applying the env operations of
the output of `mutateContainer`, in the order emitted, to the container's env
succeeds at every step, whether the env is present or, when empty, absent, and
yields the original entries that are not disallowed, in their order, followed by
`NVIDIA_VISIBLE_DEVICES=none`; that entry is the only one of its name and the last. -/
theorem mutateContainer_env_result (path : String) (con : Container)
    (h : (mutateContainer path con).2 = false) :
    applyEnvOps path (mutateContainer path con).1 (some con.Env) =
      some (some (con.Env.filter (fun e => !disallowed e.Name) ++
        [{ Name := "NVIDIA_VISIBLE_DEVICES", Value := "none" }])) ∧
    (con.Env = [] → applyEnvOps path (mutateContainer path con).1 none =
      some (some [{ Name := "NVIDIA_VISIBLE_DEVICES", Value := "none" }])) ∧
    (∀ name, disallowed name = true ↔
      (name = "NVIDIA_VISIBLE_DEVICES" ∨ name = "NVIDIA_DRIVER_CAPABILITIES" ∨
        name = "CUDA_VISIBLE_DEVICES" ∨ HasPrefix name "NVIDIA_REQUIRE_" = true)) ∧
    (con.Env.filter (fun e => !disallowed e.Name) ++
        [({ Name := "NVIDIA_VISIBLE_DEVICES", Value := "none" } : EnvVar)]).filter
        (fun e : EnvVar => e.Name == "NVIDIA_VISIBLE_DEVICES") =
      [{ Name := "NVIDIA_VISIBLE_DEVICES", Value := "none" }] ∧
    (con.Env.filter (fun e => !disallowed e.Name) ++
        [({ Name := "NVIDIA_VISIBLE_DEVICES", Value := "none" } : EnvVar)]).getLast? =
      some { Name := "NVIDIA_VISIBLE_DEVICES", Value := "none" } := by
  refine ⟨applyEnvOps_mutateContainer path con h _ (Or.inl rfl), ?_, disallowed_iff, ?_, ?_⟩
  · intro he
    have := applyEnvOps_mutateContainer path con h none (Or.inr ⟨he, rfl⟩)
    rw [he] at this
    rw [this]
    rfl
  · rw [List.filter_append, List.filter_filter]
    have h1 : con.Env.filter (fun e => (e.Name == "NVIDIA_VISIBLE_DEVICES") &&
        !disallowed e.Name) = [] := by
      apply filter_eq_nil_of_forall
      intro e _
      by_cases hn : e.Name = "NVIDIA_VISIBLE_DEVICES"
      · have hd : disallowed e.Name = true := (disallowed_iff e.Name).mpr (Or.inl hn)
        simp [hd]
      · simp [hn]
    rw [h1]
    rfl
  · rw [List.getLast?_append]
    rfl

/-- Witness of C18: `busyContainer`, three of whose five env entries are disallowed. -/
theorem mutateContainer_env_result_witness :
    (mutateContainer "/spec/containers/0" busyContainer).2 = false ∧
    applyEnvOps "/spec/containers/0" (mutateContainer "/spec/containers/0" busyContainer).1
        (some busyContainer.Env) =
      some (some [{ Name := "HOME", Value := "/root" }, { Name := "PATH", Value := "/bin" },
        { Name := "NVIDIA_VISIBLE_DEVICES", Value := "none" }]) :=
  ⟨by decide,
   (mutateContainer_env_result "/spec/containers/0" busyContainer (by decide)).1.trans
     (by decide)⟩

theorem stripped_limits (path : String) (c : Container)
    (h : (mutateContainer path c).2 = false) :
    ∀ kv ∈ (stripped c).Resources.Limits, HasPrefix kv.1 "nvidia.com/" = false := by
  intro kv hkv
  have hmem := List.mem_filter.mp hkv
  have hz : zeroGPU kv = false := by simpa using hmem.2
  have hp := zeroGPU_eq_prefix path c h kv hmem.1
  rw [hp] at hz
  exact hz

theorem stripped_patched (path q : String) (c : Container)
    (h : (mutateContainer path c).2 = false) :
    patched q (stripped c) = some (stripped c) := by
  apply patched_fixed q (stripped c) (c.Env.filter (fun e => !disallowed e.Name))
    (stripped_limits path c h) rfl
  intro e he
  have := (List.mem_filter.mp he).2
  simpa using this

/-- C19: for every container `c` that is not GPU-requesting, the container
`stripped c` (the env of `c` without the disallowed entries followed by
`NVIDIA_VISIBLE_DEVICES=none`, the zero-valued `nvidia.com/` limits and the requests
under their keys removed) has no `nvidia.com/` limit left, is again not
GPU-requesting, and applying to it the patch list that `mutateContainer` emits for it
gives it back, at every path.  Whenever the patch list of `c` applies to `c`, the
result `c2` likewise has that env, no `nvidia.com/` limit, is not GPU-requesting and
is given back by its own patch list; and when the limit keys of `c` are pairwise
distinct and nothing after the prefix of a `nvidia.com/` key is a `/` or a `~`, the
patch list of `c` does apply and its result is `stripped c`. -/
theorem mutateContainer_idempotent (path : String) (c : Container)
    (h : (mutateContainer path c).2 = false) :
    (stripped c).Env = c.Env.filter (fun e => !disallowed e.Name) ++
      [{ Name := "NVIDIA_VISIBLE_DEVICES", Value := "none" }] ∧
    (∀ kv ∈ (stripped c).Resources.Limits, HasPrefix kv.1 "nvidia.com/" = false) ∧
    (∀ q, (mutateContainer q (stripped c)).2 = false) ∧
    (∀ q, patched q (stripped c) = some (stripped c)) ∧
    (∀ c2, patched path c = some c2 →
      c2.Env = c.Env.filter (fun e => !disallowed e.Name) ++
        [{ Name := "NVIDIA_VISIBLE_DEVICES", Value := "none" }] ∧
      (∀ kv ∈ c2.Resources.Limits, HasPrefix kv.1 "nvidia.com/" = false) ∧
      (mutateContainer path c2).2 = false ∧
      patched path c2 = some c2) ∧
    ((c.Resources.Limits.map Prod.fst).Nodup →
      (∀ kv ∈ c.Resources.Limits, HasPrefix kv.1 "nvidia.com/" = true →
        ∀ x ∈ (TrimPrefix kv.1 "nvidia.com/").data, x ≠ '/' ∧ x ≠ '~') →
      patched path c = some (stripped c)) := by
  have hlim := stripped_limits path c h
  refine ⟨rfl, hlim, ?_, fun q => stripped_patched path q c h, ?_,
    fun hnodup hplain => patched_eq_stripped path c h hnodup hplain⟩
  · intro q
    rw [mutateContainer_of_no_nvidia q (stripped c) hlim]
  · intro c2 hc2
    unfold patched at hc2
    cases ha : applyPatch path (mutateContainer path c).1 c.toDoc with
    | none => rw [ha] at hc2; cases hc2
    | some doc =>
      rw [ha] at hc2
      obtain ⟨henv, hlimd⟩ := applyPatch_mutateContainer path c doc h ha
      have hc2eq : c2 = c.ofDoc doc := (Option.some.inj hc2).symm
      have henv2 : c2.Env = c.Env.filter (fun e => !disallowed e.Name) ++ [noneEnvVar] := by
        rw [hc2eq]
        simp only [Container.ofDoc, henv, Option.getD_some]
      have hlim2 : ∀ kv ∈ c2.Resources.Limits, HasPrefix kv.1 "nvidia.com/" = false := by
        rw [hc2eq]
        exact hlimd
      refine ⟨henv2, hlim2, ?_, ?_⟩
      · rw [mutateContainer_of_no_nvidia path c2 hlim2]
      · apply patched_fixed path c2 _ hlim2 henv2
        intro e he
        have := (List.mem_filter.mp he).2
        simpa using this

/-- Witness of C19: `busyContainer` is not GPU-requesting; its patch list applies and
yields `stripped busyContainer`, which its own patch list gives back.  The same holds
for `stripped slashKeyContainer`, although the patch list of `slashKeyContainer`
itself cannot be applied. -/
theorem mutateContainer_idempotent_witness :
    (mutateContainer "/spec/containers/0" busyContainer).2 = false ∧
    patched "/spec/containers/0" busyContainer = some (stripped busyContainer) ∧
    (mutateContainer "/spec/containers/0" (stripped busyContainer)).2 = false ∧
    patched "/spec/containers/0" (stripped busyContainer) = some (stripped busyContainer) ∧
    (mutateContainer "/spec/containers/0" slashKeyContainer).2 = false ∧
    patched "/spec/containers/0" (stripped slashKeyContainer) =
      some (stripped slashKeyContainer) :=
  have hb := mutateContainer_idempotent "/spec/containers/0" busyContainer (by decide)
  have hs := mutateContainer_idempotent "/spec/containers/0" slashKeyContainer (by decide)
  ⟨by decide, by decide, hb.2.2.1 "/spec/containers/0", hb.2.2.2.1 "/spec/containers/0",
   by decide, hs.2.2.2.1 "/spec/containers/0"⟩

/-- The patch list of a container whose zero-valued GPU limit has a second `/` in
its key cannot be applied: the path of its `remove` names no member of the limits. -/
theorem patched_slashKeyContainer :
    patched "/spec/containers/0" slashKeyContainer = none ∧
    patched "/spec/containers/0" tildeKeyContainer = none := by
  decide

end Webhook
